import Mathlib

/-!
A verification development for the nested-structure codec in
`sonnet/python/ops/nest.py`: the functions `is_iterable`, `flatten_iterable`,
`pack_iterable_as` and their helpers `_sorted`, `_iterable_like`,
`_yield_value_from_iterable`, `_yield_flat_nest_from_iterable` and
`_packed_iterable_nest_with_indices`.

The embedding models Python values by the inductive type `PyVal`:
leaves (strings, ints, booleans, opaque numpy-array and tensor handles, and
generic non-iterable objects), lists, tuples, namedtuples (carrying their type
name and field names), and dicts.  A dict carries an `ordered` flag recording
its concrete kind (`collections.OrderedDict` versus plain `dict`) together
with its entries in native iteration order.  Dict keys are ints or strings;
two keys are comparable exactly when they have the same kind, which models
Python 3's `TypeError` on cross-type `<`.

Python exceptions are modelled by `Except PyError`.  The recursive traversals
of the source are general recursion in Python; here they take an explicit
fuel argument (structural recursion on the fuel) and the exported wrappers
supply `pySize` fuel, which is proved sufficient, so every definition is
executable by kernel reduction.  Running out of fuel produces the
`RecursionError`-like branch, which is unreachable at the exported entry
points.
-/

namespace Nest

/-- A dict key: an int or a string.  Python 3 compares ints with ints and
strings with strings, and raises `TypeError` on a cross-kind comparison. -/
inductive Key where
  | int (n : Int)
  | str (s : String)
deriving DecidableEq

/-- A scalar (non-container) Python value: string, int, bool, an opaque
numpy-array handle, an opaque tensor handle, or a generic non-iterable
object. -/
inductive Atom where
  | str (s : String)
  | int (n : Int)
  | bool (b : Bool)
  | ndarray (i : Nat)
  | tensor (i : Nat)
  | obj (i : Nat)
deriving DecidableEq

/-- A Python value as seen by `nest.py`: a scalar leaf, a list, a tuple, a
namedtuple (type name, field names, field values), or a dict.  The `ordered`
flag of `dict` records the concrete mapping kind (`OrderedDict` when true,
plain `dict` when false); `entries` lists the key/value pairs in the
mapping's native iteration order. -/
inductive PyVal where
  | leaf (a : Atom)
  | list (xs : List PyVal)
  | tuple (xs : List PyVal)
  | namedtuple (nm : String) (fields : List String) (xs : List PyVal)
  | dict (ordered : Bool) (entries : List (Key × PyVal))

/-- Python exceptions raised by the codec. -/
inductive PyError where
  | typeError (msg : String)
  | valueError (msg : String)
  | keyError
  | indexError
deriving DecidableEq

/-- Code-point comparison of characters, as Python compares string
characters. -/
def charLtB (c d : Char) : Bool := c.val.toNat < d.val.toNat

/-- Lexicographic comparison of character lists by code point: Python's
`<` on strings. -/
def charsLtB : List Char → List Char → Bool
  | [], [] => false
  | [], _ :: _ => true
  | _ :: _, [] => false
  | c :: cs, d :: ds =>
    if charLtB c d then true
    else if c.val.toNat = d.val.toNat then charsLtB cs ds
    else false

/-- Python's `<` on strings (lexicographic by code point). -/
def strLtB (s t : String) : Bool := charsLtB s.data t.data

/-- Python's `<` on keys: defined within a kind, never across kinds. -/
def keyLt : Key → Key → Bool
  | .int a, .int b => decide (a < b)
  | .str a, .str b => strLtB a b
  | _, _ => false

/-- Non-strict key comparison used to state sortedness: `<` or equal. -/
def keyLe (a b : Key) : Bool := keyLt a b || decide (a = b)

/-- Two keys are comparable (Python's `<` is defined on them) exactly when
they have the same kind. -/
def sameKind : Key → Key → Bool
  | .int _, .int _ => true
  | .str _, .str _ => true
  | _, _ => false

/-- All keys in the list are pairwise comparable, which is exactly when
Python's `sorted` succeeds on them. -/
def keysSortable (ks : List Key) : Bool :=
  ks.all (fun a => ks.all (fun b => sameKind a b))

/-- Insert a key into a sorted list of keys, keeping ascending order. -/
def kinsert (k : Key) : List Key → List Key
  | [] => [k]
  | k2 :: rest => if keyLe k k2 then k :: k2 :: rest else k2 :: kinsert k rest

/-- Ascending insertion sort of keys: the order produced by Python's
`sorted` on comparable keys. -/
def ksort : List Key → List Key
  | [] => []
  | k :: rest => kinsert k (ksort rest)

/-- First-match association-list lookup: Python's `d[k]` on a dict whose
entries are listed in native order (a real dict never repeats a key). -/
def dictLookup : List (Key × PyVal) → Key → Option PyVal
  | [], _ => none
  | (k, v) :: rest, k2 => if k = k2 then some v else dictLookup rest k2

/-- The keys of a dict in native iteration order (`six.iterkeys`). -/
def dictKeys (es : List (Key × PyVal)) : List Key := es.map Prod.fst

/-- Source: `_sorted(dict_)` — `sorted(_six.iterkeys(dict_))`, raising
`TypeError("nest only supports dicts with sortable keys.")` when the keys
are not pairwise comparable. -/
def _sorted (es : List (Key × PyVal)) : Except PyError (List Key) :=
  if keysSortable (dictKeys es) then .ok (ksort (dictKeys es))
  else .error (.typeError "nest only supports dicts with sortable keys.")

/-- Look up each key in turn (`iterable[key]` inside the dict branch of
`_yield_value_from_iterable`); a missing key is Python's `KeyError`, which
cannot occur for keys drawn from the dict itself. -/
def lookupMany (es : List (Key × PyVal)) : List Key → Except PyError (List PyVal)
  | [] => .ok []
  | k :: ks =>
    match dictLookup es k with
    | none => .error .keyError
    | some v =>
      match lookupMany es ks with
      | .error e => .error e
      | .ok vs => .ok (v :: vs)

/-- Models `isinstance(seq, _six.string_types) or isinstance(seq, np.ndarray)
or isinstance(seq, tf.Tensor)`: the kinds `is_iterable` unconditionally
treats as leaves. -/
def isOpaqueLeafKind : PyVal → Bool
  | .leaf (.str _) => true
  | .leaf (.ndarray _) => true
  | .leaf (.tensor _) => true
  | _ => false

/-- Models whether `iter(seq)` succeeds at the host-language level.  Strings
support character iteration and array/tensor handles support element-wise
iteration (spec section 6), while ints, booleans and generic non-iterable
objects raise `TypeError`; every container kind is iterable. -/
def hasIter : PyVal → Bool
  | .leaf (.str _) => true
  | .leaf (.ndarray _) => true
  | .leaf (.tensor _) => true
  | .leaf _ => false
  | _ => true

/-- Source: `is_iterable(seq)` — false for the opaque leaf kinds
(string, numpy array, tensor) and for anything on which `iter` raises;
true otherwise. -/
def is_iterable (seq : PyVal) : Bool :=
  if isOpaqueLeafKind seq then false else hasIter seq

/-- The characters of a string as single-character string leaves: what
`for value in s` yields on a Python string. -/
def strChars (s : String) : List PyVal :=
  s.data.map (fun c => PyVal.leaf (.str (String.singleton c)))

/-- Source: `_yield_value_from_iterable(iterable)` — dict children are the
values taken in ascending sorted-key order; other containers yield their
elements in positional order.  A string yields its characters; the remaining
leaf kinds are where `for value in iterable` would raise, a branch the
source never reaches because all call sites guard with `is_iterable`
(element iteration of array/tensor handles is outside the model, spec
section 6). -/
def _yield_value_from_iterable : PyVal → Except PyError (List PyVal)
  | .dict _ es =>
    match _sorted es with
    | .error e => .error e
    | .ok ks => lookupMany es ks
  | .list xs => .ok xs
  | .tuple xs => .ok xs
  | .namedtuple _ _ xs => .ok xs
  | .leaf (.str s) => .ok (strChars s)
  | .leaf _ => .error (.typeError "iteration over non-sequence")

mutual
/-- Computable structural size of a value, used as recursion fuel. -/
def pySize : PyVal → Nat
  | .leaf _ => 1
  | .list xs => 1 + pySizeL xs
  | .tuple xs => 1 + pySizeL xs
  | .namedtuple _ _ xs => 1 + pySizeL xs
  | .dict _ es => 1 + pySizeE es
/-- Total size of a list of values. -/
def pySizeL : List PyVal → Nat
  | [] => 0
  | x :: xs => pySize x + pySizeL xs
/-- Total size of a list of dict entries. -/
def pySizeE : List (Key × PyVal) → Nat
  | [] => 0
  | (_, v) :: es => pySize v + pySizeE es
end

/-- The loop body of `_yield_flat_nest_from_iterable`: for each child, splice
in the recursive flattening (when the child is iterable) or yield the child
itself.  The recursive call is passed in explicitly so the definition is
structural on the child list. -/
def flatKidsWith (recf : PyVal → Except PyError (List PyVal)) :
    List PyVal → Except PyError (List PyVal)
  | [] => .ok []
  | v :: rest =>
    match (if is_iterable v then recf v else .ok [v]) with
    | .error e => .error e
    | .ok l1 =>
      match flatKidsWith recf rest with
      | .error e => .error e
      | .ok l2 => .ok (l1 ++ l2)

/-- Source: `_yield_flat_nest_from_iterable(iterable)`, with explicit fuel
standing for Python's recursion (fuel exhaustion models `RecursionError`
and is unreachable from the exported wrapper). -/
def flatNestF : Nat → PyVal → Except PyError (List PyVal)
  | 0, _ => .error (.typeError "maximum recursion depth exceeded")
  | f + 1, iterable =>
    match _yield_value_from_iterable iterable with
    | .error e => .error e
    | .ok vs => flatKidsWith (flatNestF f) vs

/-- Source: `_yield_flat_nest_from_iterable(iterable)` (materialized as a
list, as `flatten_iterable` does). -/
def _yield_flat_nest_from_iterable (iterable : PyVal) : Except PyError (List PyVal) :=
  flatNestF (pySize iterable) iterable

/-- Source: `flatten_iterable(structure)` — a single-element list for a
non-iterable value, otherwise the depth-first list of leaves. -/
def flatten_iterable (structure' : PyVal) : Except PyError (List PyVal) :=
  if is_iterable structure' then _yield_flat_nest_from_iterable structure'
  else .ok [structure']

mutual
/-- Python's `str`/`repr` rendering of a value, used in the arity error
message of `pack_iterable_as`. -/
def pyRepr : PyVal → String
  | .leaf (.int n) => toString n
  | .leaf (.bool b) => if b then "True" else "False"
  | .leaf (.str s) => "\x27" ++ s ++ "\x27"
  | .leaf (.ndarray i) => "array(" ++ toString i ++ ")"
  | .leaf (.tensor i) => "Tensor(" ++ toString i ++ ")"
  | .leaf (.obj i) => "<object " ++ toString i ++ ">"
  | .list xs => "[" ++ pyReprItems xs ++ "]"
  | .tuple [] => "()"
  | .tuple [x] => "(" ++ pyRepr x ++ ",)"
  | .tuple (x :: y :: xs) => "(" ++ pyReprItems (x :: y :: xs) ++ ")"
  | .namedtuple nm fields xs => nm ++ "(" ++ pyReprFields fields xs ++ ")"
  | .dict false es => "\x7b" ++ pyReprEntries es ++ "\x7d"
  | .dict true es => "OrderedDict([" ++ pyReprPairs es ++ "])"
/-- Comma-separated rendering of container elements. -/
def pyReprItems : List PyVal → String
  | [] => ""
  | [x] => pyRepr x
  | x :: y :: xs => pyRepr x ++ ", " ++ pyReprItems (y :: xs)
/-- `field=value` rendering of namedtuple fields. -/
def pyReprFields : List String → List PyVal → String
  | [], _ => ""
  | _, [] => ""
  | [f], [x] => f ++ "=" ++ pyRepr x
  | f :: fs, x :: y :: xs => f ++ "=" ++ pyRepr x ++ ", " ++ pyReprFields fs (y :: xs)
  | _ :: _ :: _, [_] => ""
/-- `key: value` rendering of plain-dict entries. -/
def pyReprEntries : List (Key × PyVal) → String
  | [] => ""
  | [(k, v)] => keyRepr k ++ ": " ++ pyRepr v
  | (k, v) :: e :: es => keyRepr k ++ ": " ++ pyRepr v ++ ", " ++ pyReprEntries (e :: es)
/-- `(key, value)` rendering of OrderedDict entries. -/
def pyReprPairs : List (Key × PyVal) → String
  | [] => ""
  | [(k, v)] => "(" ++ keyRepr k ++ ", " ++ pyRepr v ++ ")"
  | (k, v) :: e :: es => "(" ++ keyRepr k ++ ", " ++ pyRepr v ++ "), " ++ pyReprPairs (e :: es)
/-- Rendering of a dict key. -/
def keyRepr : Key → String
  | .int n => toString n
  | .str s => "\x27" ++ s ++ "\x27"
end

/-- Python's `len` on the value supplied as the flat iterable.  Every
container kind and strings have a length; the remaining leaf kinds raise
`TypeError`, a branch unreachable in the source because `pack_iterable_as`
only takes `len` after `is_iterable` has succeeded. -/
def pyLen : PyVal → Except PyError Nat
  | .list xs => .ok xs.length
  | .tuple xs => .ok xs.length
  | .namedtuple _ _ xs => .ok xs.length
  | .dict _ es => .ok es.length
  | .leaf (.str s) => .ok s.length
  | .leaf _ => .error (.typeError "object has no length")

/-- Python's `flat[index]` with a non-negative integer index: positional
for sequences (out of range is `IndexError`), a key lookup for dicts
(a missing key is `KeyError`), character indexing for strings, and
`TypeError` for the remaining leaves. -/
def getItem : PyVal → Nat → Except PyError PyVal
  | .list xs, i =>
    match xs[i]? with
    | some v => .ok v
    | none => .error .indexError
  | .tuple xs, i =>
    match xs[i]? with
    | some v => .ok v
    | none => .error .indexError
  | .namedtuple _ _ xs, i =>
    match xs[i]? with
    | some v => .ok v
    | none => .error .indexError
  | .dict _ es, i =>
    match dictLookup es (.int (Int.ofNat i)) with
    | some v => .ok v
    | none => .error .keyError
  | .leaf (.str s), i =>
    match s.data[i]? with
    | some c => .ok (.leaf (.str (String.singleton c)))
    | none => .error .indexError
  | .leaf _, _ => .error (.typeError "object is not subscriptable")

/-- Python's `zip(ks, args)`: pairs positionally, truncating at the shorter
list. -/
def zipKV : List Key → List PyVal → List (Key × PyVal)
  | k :: ks, v :: vs => (k, v) :: zipKV ks vs
  | _, _ => []

/-- The generator `((key, result[key]) for key in _six.iterkeys(instance))`
materialized against `result`: each native-order key of the template paired
with its value in `result`; a key absent from `result` is Python's
`KeyError` (possible in the source only when `args` is shorter than the key
list, which the pack arity check rules out). -/
def rebuildEntries (result : List (Key × PyVal)) :
    List (Key × PyVal) → Except PyError (List (Key × PyVal))
  | [] => .ok []
  | (k, _) :: rest =>
    match dictLookup result k with
    | none => .error .keyError
    | some v =>
      match rebuildEntries result rest with
      | .error e => .error e
      | .ok out => .ok ((k, v) :: out)

/-- Source: `_iterable_like(instance, args)` — rebuild a container of the
same concrete kind as `instance` from the already-ordered children `args`.
For a dict, `args` is paired positionally with the sorted keys
(`dict(zip(_sorted(instance), args))`) and the new mapping is constructed in
the template's native key order, preserving its concrete kind (the
`ordered` flag).  For a namedtuple, `type(instance)(*args)` requires exactly
one argument per field.  The leaf branch is where `type(instance)(args)`
would misbehave on a scalar type; it is unreachable in the source, whose
call sites all guard with `is_iterable`. -/
def _iterable_like (instance' : PyVal) (args : List PyVal) : Except PyError PyVal :=
  match instance' with
  | .dict o es =>
    match _sorted es with
    | .error e => .error e
    | .ok ks =>
      match rebuildEntries (zipKV ks args) es with
      | .error e => .error e
      | .ok es2 => .ok (.dict o es2)
  | .namedtuple nm fields _ =>
    if args.length = fields.length then .ok (.namedtuple nm fields args)
    else .error (.typeError "namedtuple constructor arity mismatch")
  | .tuple _ => .ok (.tuple args)
  | .list _ => .ok (.list args)
  | .leaf _ => .error (.typeError "cannot rebuild a scalar from a list")

/-- The loop body of `_packed_iterable_nest_with_indices`: walk the template
children in order; an iterable child is packed recursively and rebuilt with
`_iterable_like`, a leaf position consumes `flat[index]` and advances the
index.  The recursive call is passed in explicitly so the definition is
structural on the child list. -/
def packKidsWith (recf : PyVal → PyVal → Nat → Except PyError (Nat × List PyVal))
    (flat : PyVal) : List PyVal → Nat → Except PyError (Nat × List PyVal)
  | [], index => .ok (index, [])
  | s :: rest, index =>
    if is_iterable s then
      match recf s flat index with
      | .error e => .error e
      | .ok (new_index, child) =>
        match _iterable_like s child with
        | .error e => .error e
        | .ok c =>
          match packKidsWith recf flat rest new_index with
          | .error e => .error e
          | .ok (fi, packed) => .ok (fi, c :: packed)
    else
      match getItem flat index with
      | .error e => .error e
      | .ok v =>
        match packKidsWith recf flat rest (index + 1) with
        | .error e => .error e
        | .ok (fi, packed) => .ok (fi, v :: packed)

/-- Source: `_packed_iterable_nest_with_indices(structure, flat, index)`,
with explicit fuel standing for Python's recursion (fuel exhaustion models
`RecursionError` and is unreachable from the exported wrapper). -/
def packNestF : Nat → PyVal → PyVal → Nat → Except PyError (Nat × List PyVal)
  | 0, _, _, _ => .error (.typeError "maximum recursion depth exceeded")
  | f + 1, structure', flat, index =>
    match _yield_value_from_iterable structure' with
    | .error e => .error e
    | .ok vs => packKidsWith (packNestF f) flat vs index

/-- Source: `_packed_iterable_nest_with_indices(structure, flat, index)`. -/
def _packed_iterable_nest_with_indices (structure' flat : PyVal) (index : Nat) :
    Except PyError (Nat × List PyVal) :=
  packNestF (pySize structure') structure' flat index

/-- The message of the scalar-template arity error:
`"Structure is a scalar but len(flat_iterable) == %d > 1" % len(flat_iterable)`. -/
def scalarArityMsg (n : Nat) : String :=
  "Structure is a scalar but len(flat_iterable) == " ++ toString n ++ " > 1"

/-- The message of the count-mismatch arity error, carrying both element
counts and the `str` renderings of the template and of the flat values. -/
def arityMsg (nStructure nFlat : Nat) (structure' flat : PyVal) : String :=
  "Could not pack iterable. Structure had " ++ toString nStructure ++
  " elements, but flat_iterable had " ++ toString nFlat ++
  " elements.  Structure: " ++ pyRepr structure' ++
  ", flat_iterable: " ++ pyRepr flat ++ "."

/-- Source: `pack_iterable_as(structure, flat_iterable)`. -/
def pack_iterable_as (structure' flat_iterable : PyVal) : Except PyError PyVal :=
  if is_iterable flat_iterable = false then
    .error (.typeError "flat_iterable must be an iterable")
  else if is_iterable structure' = false then
    match pyLen flat_iterable with
    | .error e => .error e
    | .ok n =>
      if n ≠ 1 then .error (.valueError (scalarArityMsg n))
      else getItem flat_iterable 0
  else
    match flatten_iterable structure' with
    | .error e => .error e
    | .ok flat_structure =>
      match pyLen flat_iterable with
      | .error e => .error e
      | .ok n =>
        if flat_structure.length ≠ n then
          .error (.valueError (arityMsg flat_structure.length n structure' flat_iterable))
        else
          match _packed_iterable_nest_with_indices structure' flat_iterable 0 with
          | .error e => .error e
          | .ok (_, packed) => _iterable_like structure' packed

/-- Boolean key membership. -/
def keyMem (k : Key) : List Key → Bool
  | [] => false
  | k2 :: ks => decide (k = k2) || keyMem k ks

/-- The keys are pairwise distinct. -/
def nodupK : List Key → Bool
  | [] => true
  | k :: ks => !keyMem k ks && nodupK ks

/-- A dict's keys in native order are pairwise distinct: true of every real
Python dict by construction. -/
def nodupKeys (es : List (Key × PyVal)) : Bool :=
  nodupK (dictKeys es)

mutual
/-- Well-formedness of a value as a real Python object: every dict has
pairwise-comparable, pairwise-distinct keys, and every namedtuple has one
value per field. -/
def WFv : PyVal → Bool
  | .leaf _ => true
  | .list xs => WFl xs
  | .tuple xs => WFl xs
  | .namedtuple _ fields xs => (fields.length == xs.length) && WFl xs
  | .dict _ es => keysSortable (dictKeys es) && nodupKeys es && WFes es
/-- Well-formedness of every element. -/
def WFl : List PyVal → Bool
  | [] => true
  | x :: xs => WFv x && WFl xs
/-- Well-formedness of every entry value. -/
def WFes : List (Key × PyVal) → Bool
  | [] => true
  | (_, v) :: es => WFv v && WFes es
end

mutual
/-- The value is, or contains at a composite position reached by the
traversal, a dict whose keys are not pairwise comparable. -/
def containsUnsortable : PyVal → Bool
  | .leaf _ => false
  | .list xs => anyUnsortable xs
  | .tuple xs => anyUnsortable xs
  | .namedtuple _ _ xs => anyUnsortable xs
  | .dict _ es => !keysSortable (dictKeys es) || anyUnsortableE es
/-- Some element is or contains an unsortable-key dict. -/
def anyUnsortable : List PyVal → Bool
  | [] => false
  | x :: xs => containsUnsortable x || anyUnsortable xs
/-- Some entry value is or contains an unsortable-key dict. -/
def anyUnsortableE : List (Key × PyVal) → Bool
  | [] => false
  | (_, v) :: es => containsUnsortable v || anyUnsortableE es
end

mutual
/-- Every dict anywhere in the value has pairwise-distinct keys: true of
every structure built from real Python dicts, which cannot repeat a key. -/
def nodupDicts : PyVal → Bool
  | .leaf _ => true
  | .list xs => nodupDictsL xs
  | .tuple xs => nodupDictsL xs
  | .namedtuple _ _ xs => nodupDictsL xs
  | .dict _ es => nodupKeys es && nodupDictsE es
/-- `nodupDicts` for every element. -/
def nodupDictsL : List PyVal → Bool
  | [] => true
  | x :: xs => nodupDicts x && nodupDictsL xs
/-- `nodupDicts` for every entry value. -/
def nodupDictsE : List (Key × PyVal) → Bool
  | [] => true
  | (_, v) :: es => nodupDicts v && nodupDictsE es
end

/-! ### Basic facts about sizes, comparisons and sorting -/

theorem pySize_pos (x : PyVal) : 1 ≤ pySize x := by
  cases x <;> simp [pySize]

theorem pySizeL_le_of_mem {x : PyVal} {xs : List PyVal} (h : x ∈ xs) :
    pySize x ≤ pySizeL xs := by
  induction xs with
  | nil => cases h
  | cons y ys ih =>
    rcases List.mem_cons.mp h with rfl | h2
    · simp [pySizeL]
    · have := ih h2
      simp only [pySizeL]
      omega

theorem pySizeE_le_of_mem {k : Key} {v : PyVal} {es : List (Key × PyVal)}
    (h : (k, v) ∈ es) : pySize v ≤ pySizeE es := by
  induction es with
  | nil => cases h
  | cons e rest ih =>
    obtain ⟨k2, v2⟩ := e
    rcases List.mem_cons.mp h with heq | h2
    · cases heq
      simp [pySizeE]
    · have := ih h2
      simp [pySizeE]
      omega

theorem dictLookup_mem {es : List (Key × PyVal)} {k : Key} {v : PyVal}
    (h : dictLookup es k = some v) : (k, v) ∈ es := by
  induction es with
  | nil => simp [dictLookup] at h
  | cons e rest ih =>
    obtain ⟨k2, v2⟩ := e
    by_cases hk : k2 = k
    · subst hk
      simp [dictLookup] at h
      subst h
      exact List.mem_cons_self _ _
    · simp [dictLookup, hk] at h
      exact List.mem_cons_of_mem _ (ih h)

theorem lookupMany_mem {es : List (Key × PyVal)} {ks : List Key}
    {vs : List PyVal} (h : lookupMany es ks = .ok vs) {v : PyVal} (hv : v ∈ vs) :
    ∃ k, dictLookup es k = some v := by
  induction ks generalizing vs with
  | nil =>
    simp [lookupMany] at h
    subst h
    cases hv
  | cons k ks ih =>
    simp only [lookupMany] at h
    cases hl : dictLookup es k with
    | none => rw [hl] at h; cases h
    | some w =>
      rw [hl] at h
      cases hrest : lookupMany es ks with
      | error e => rw [hrest] at h; cases h
      | ok ws =>
        rw [hrest] at h
        cases h
        rcases List.mem_cons.mp hv with rfl | h2
        · exact ⟨k, hl⟩
        · exact ih hrest h2

theorem strChars_not_iterable {s : String} {v : PyVal} (h : v ∈ strChars s) :
    is_iterable v = false := by
  simp only [strChars, List.mem_map] at h
  obtain ⟨c, _, rfl⟩ := h
  rfl

/-- Every iterable child yielded by `_yield_value_from_iterable` is strictly
smaller than its parent, so `pySize` fuel suffices for the traversals. -/
theorem yield_value_size {x : PyVal} {vs : List PyVal}
    (h : _yield_value_from_iterable x = .ok vs) {v : PyVal} (hv : v ∈ vs)
    (hi : is_iterable v = true) : pySize v < pySize x := by
  cases x with
  | leaf a =>
    cases a with
    | str s =>
      simp only [_yield_value_from_iterable] at h
      cases h
      rw [strChars_not_iterable hv] at hi
      cases hi
    | int n => simp [_yield_value_from_iterable] at h
    | bool b => simp [_yield_value_from_iterable] at h
    | ndarray i => simp [_yield_value_from_iterable] at h
    | tensor i => simp [_yield_value_from_iterable] at h
    | obj i => simp [_yield_value_from_iterable] at h
  | list xs =>
    simp only [_yield_value_from_iterable] at h
    cases h
    have := pySizeL_le_of_mem hv
    simp [pySize]
    omega
  | tuple xs =>
    simp only [_yield_value_from_iterable] at h
    cases h
    have := pySizeL_le_of_mem hv
    simp [pySize]
    omega
  | namedtuple nm fields xs =>
    simp only [_yield_value_from_iterable] at h
    cases h
    have := pySizeL_le_of_mem hv
    simp [pySize]
    omega
  | dict o es =>
    simp only [_yield_value_from_iterable] at h
    cases hs : _sorted es with
    | error e => rw [hs] at h; cases h
    | ok ks =>
      rw [hs] at h
      obtain ⟨k, hk⟩ := lookupMany_mem h hv
      have hmem := dictLookup_mem hk
      have := pySizeE_le_of_mem hmem
      simp [pySize]
      omega

/-! ### Fuel stability: any fuel at least `pySize` gives the same result -/

theorem flatKidsWith_congr {r1 r2 : PyVal → Except PyError (List PyVal)}
    {vs : List PyVal} (h : ∀ v ∈ vs, is_iterable v = true → r1 v = r2 v) :
    flatKidsWith r1 vs = flatKidsWith r2 vs := by
  induction vs with
  | nil => rfl
  | cons v rest ih =>
    simp only [flatKidsWith]
    rw [ih (fun w hw => h w (List.mem_cons_of_mem _ hw))]
    cases hi : is_iterable v with
    | false => simp
    | true => rw [h v (List.mem_cons_self _ _) hi]

theorem flatNestF_stable : ∀ (f g : Nat) (x : PyVal), pySize x ≤ f → pySize x ≤ g →
    flatNestF f x = flatNestF g x := by
  intro f
  induction f with
  | zero =>
    intro g x hf _
    have := pySize_pos x
    omega
  | succ f ih =>
    intro g x hf hg
    have hx := pySize_pos x
    cases g with
    | zero => omega
    | succ g =>
      simp only [flatNestF]
      cases hy : _yield_value_from_iterable x with
      | error e => rfl
      | ok vs =>
        exact flatKidsWith_congr (fun v hv hi => by
          have hlt := yield_value_size hy hv hi
          exact ih g v (by omega) (by omega))

theorem packKidsWith_congr {r1 r2 : PyVal → PyVal → Nat → Except PyError (Nat × List PyVal)}
    {flat : PyVal} {vs : List PyVal}
    (h : ∀ v ∈ vs, is_iterable v = true → ∀ i, r1 v flat i = r2 v flat i) :
    ∀ i, packKidsWith r1 flat vs i = packKidsWith r2 flat vs i := by
  induction vs with
  | nil => intro i; rfl
  | cons v rest ih =>
    intro i
    have htail : ∀ j, packKidsWith r1 flat rest j = packKidsWith r2 flat rest j :=
      ih (fun u hu hiu j => h u (List.mem_cons_of_mem _ hu) hiu j)
    simp only [packKidsWith, htail]
    cases hi : is_iterable v with
    | false => simp
    | true => rw [h v (List.mem_cons_self _ _) hi i]

theorem packNestF_stable : ∀ (f g : Nat) (x flat : PyVal) (i : Nat),
    pySize x ≤ f → pySize x ≤ g → packNestF f x flat i = packNestF g x flat i := by
  intro f
  induction f with
  | zero =>
    intro g x flat i hf _
    have := pySize_pos x
    omega
  | succ f ih =>
    intro g x flat i hf hg
    have hx := pySize_pos x
    cases g with
    | zero => omega
    | succ g =>
      simp only [packNestF]
      cases hy : _yield_value_from_iterable x with
      | error e => rfl
      | ok vs =>
        exact packKidsWith_congr (fun v hv hi j => by
          have hlt := yield_value_size hy hv hi
          exact ih g v flat j (by omega) (by omega)) i

/-! ### The key order: a strict order within each kind -/

theorem charsLtB_irrefl : ∀ cs, charsLtB cs cs = false := by
  intro cs
  induction cs with
  | nil => rfl
  | cons c cs ih => simp [charsLtB, charLtB, ih]

theorem charsLtB_trans : ∀ {as bs cs : List Char}, charsLtB as bs = true →
    charsLtB bs cs = true → charsLtB as cs = true := by
  intro as
  induction as with
  | nil =>
    intro bs cs hab hbc
    cases bs with
    | nil => simp [charsLtB] at hab
    | cons b bs =>
      cases cs with
      | nil => simp [charsLtB] at hbc
      | cons c cs => simp [charsLtB]
  | cons a as ih =>
    intro bs cs hab hbc
    cases bs with
    | nil => simp [charsLtB] at hab
    | cons b bs =>
      cases cs with
      | nil => simp [charsLtB] at hbc
      | cons c cs =>
        simp only [charsLtB, charLtB, decide_eq_true_eq] at hab hbc ⊢
        by_cases h1 : a.val.toNat < b.val.toNat
        · by_cases h2 : b.val.toNat < c.val.toNat
          · have h3 : a.val.toNat < c.val.toNat := by omega
            simp [h3]
          · rw [if_neg (by simpa using h2)] at hbc
            by_cases he2 : b.val.toNat = c.val.toNat
            · have h3 : a.val.toNat < c.val.toNat := by omega
              simp [h3]
            · rw [if_neg he2] at hbc; cases hbc
        · rw [if_neg (by simpa using h1)] at hab
          by_cases he1 : a.val.toNat = b.val.toNat
          · rw [if_pos he1] at hab
            by_cases h2 : b.val.toNat < c.val.toNat
            · have h3 : a.val.toNat < c.val.toNat := by omega
              simp [h3]
            · rw [if_neg (by simpa using h2)] at hbc
              by_cases he2 : b.val.toNat = c.val.toNat
              · rw [if_pos he2] at hbc
                have h3 : ¬ (a.val.toNat < c.val.toNat) := by omega
                have he3 : a.val.toNat = c.val.toNat := by omega
                rw [if_neg (by simpa using h3), if_pos he3]
                exact ih hab hbc
              · rw [if_neg he2] at hbc; cases hbc
          · rw [if_neg he1] at hab; cases hab

theorem charsLtB_total : ∀ {as bs : List Char}, charsLtB as bs = false →
    charsLtB bs as = false → as = bs := by
  intro as
  induction as with
  | nil =>
    intro bs hab _
    cases bs with
    | nil => rfl
    | cons b bs => simp [charsLtB] at hab
  | cons a as ih =>
    intro bs hab hba
    cases bs with
    | nil => simp [charsLtB] at hba
    | cons b bs =>
      simp only [charsLtB, charLtB] at hab hba
      by_cases h1 : a.val.toNat < b.val.toNat
      · simp [h1] at hab
      · by_cases h2 : b.val.toNat < a.val.toNat
        · simp [h1, h2] at hba
        · have he : a.val.toNat = b.val.toNat := by omega
          have hc : a = b := Char.ext (UInt32.ext he)
          subst hc
          simp [h1, he] at hab hba
          rw [ih hab hba]

theorem strLtB_irrefl (s : String) : strLtB s s = false := charsLtB_irrefl _

theorem strLtB_trans {a b c : String} (h1 : strLtB a b = true)
    (h2 : strLtB b c = true) : strLtB a c = true := charsLtB_trans h1 h2

theorem strLtB_total {a b : String} (h1 : strLtB a b = false)
    (h2 : strLtB b a = false) : a = b :=
  String.ext (charsLtB_total h1 h2)

theorem keyLt_irrefl (k : Key) : keyLt k k = false := by
  cases k with
  | int n => simp [keyLt]
  | str s => simpa [keyLt] using strLtB_irrefl s

theorem keyLt_trans {a b c : Key} (h1 : keyLt a b = true) (h2 : keyLt b c = true) :
    keyLt a c = true := by
  cases a <;> cases b <;> cases c <;> simp_all [keyLt]
  · omega
  · exact strLtB_trans h1 h2

theorem keyLt_total {a b : Key} (hk : sameKind a b = true)
    (h1 : keyLt a b = false) (h2 : keyLt b a = false) : a = b := by
  cases a <;> cases b <;> simp_all [keyLt, sameKind]
  · omega
  · exact strLtB_total h1 h2

theorem keyLt_asymm {a b : Key} (h : keyLt a b = true) : keyLt b a = false := by
  by_contra hc
  have h2 : keyLt b a = true := by
    cases hba : keyLt b a
    · exact absurd hba hc
    · rfl
  have := keyLt_trans h h2
  rw [keyLt_irrefl] at this
  cases this

theorem keyLe_refl (k : Key) : keyLe k k = true := by
  simp [keyLe]

theorem keyLe_trans {a b c : Key} (h1 : keyLe a b = true) (h2 : keyLe b c = true) :
    keyLe a c = true := by
  simp only [keyLe, Bool.or_eq_true, decide_eq_true_eq] at h1 h2 ⊢
  rcases h1 with h1 | rfl
  · rcases h2 with h2 | rfl
    · exact Or.inl (keyLt_trans h1 h2)
    · exact Or.inl h1
  · exact h2

theorem keyLe_antisymm {a b : Key} (h1 : keyLe a b = true) (h2 : keyLe b a = true) :
    a = b := by
  simp only [keyLe, Bool.or_eq_true, decide_eq_true_eq] at h1 h2
  rcases h1 with h1 | rfl
  · rcases h2 with h2 | rfl
    · rw [keyLt_asymm h1] at h2; cases h2
    · rfl
  · rfl

theorem keyLe_total_of_sameKind {a b : Key} (hk : sameKind a b = true)
    (h : keyLe a b = false) : keyLe b a = true := by
  simp only [keyLe, Bool.or_eq_false_iff, decide_eq_false_iff_not] at h
  obtain ⟨hlt, hne⟩ := h
  by_cases hba : keyLt b a = true
  · simp [keyLe, hba]
  · have : keyLt b a = false := by
      cases h2 : keyLt b a
      · rfl
      · exact absurd h2 hba
    have := keyLt_total hk hlt this
    exact absurd this hne

instance : IsAntisymm Key (fun a b => keyLe a b = true) := ⟨fun _ _ => keyLe_antisymm⟩

theorem sameKind_symm {a b : Key} (h : sameKind a b = true) : sameKind b a = true := by
  cases a <;> cases b <;> simp_all [sameKind]

/-! ### Sorting: `ksort` models Python's `sorted` on comparable keys -/

theorem kinsert_perm (k : Key) (l : List Key) : (kinsert k l).Perm (k :: l) := by
  induction l with
  | nil => simp [kinsert]
  | cons k2 rest ih =>
    simp only [kinsert]
    by_cases h : keyLe k k2 = true
    · simp [h]
    · have hb : keyLe k k2 = false := by
        cases h2 : keyLe k k2
        · rfl
        · exact absurd h2 h
      rw [hb]
      simp only [Bool.false_eq_true, if_false]
      exact (List.Perm.cons k2 ih).trans (List.Perm.swap k k2 rest)

theorem ksort_perm (l : List Key) : (ksort l).Perm l := by
  induction l with
  | nil => simp [ksort]
  | cons k rest ih =>
    simp only [ksort]
    exact ((kinsert_perm k (ksort rest)).trans (List.Perm.cons k ih))

theorem mem_kinsert {k k2 : Key} {l : List Key} (h : k2 ∈ kinsert k l) :
    k2 = k ∨ k2 ∈ l := by
  have := (kinsert_perm k l).mem_iff.mp h
  simpa using this

theorem kinsert_sorted {k : Key} {l : List Key}
    (hk : ∀ b ∈ l, sameKind k b = true)
    (hs : List.Sorted (fun a b => keyLe a b = true) l) :
    List.Sorted (fun a b => keyLe a b = true) (kinsert k l) := by
  induction l with
  | nil => simp [kinsert]
  | cons k2 rest ih =>
    simp only [kinsert]
    by_cases h : keyLe k k2 = true
    · rw [h]
      simp only [if_true]
      refine List.sorted_cons.mpr ⟨fun b hb => ?_, hs⟩
      rcases List.mem_cons.mp hb with rfl | hb2
      · exact h
      · have hk2b : keyLe k2 b = true := (List.sorted_cons.mp hs).1 b hb2
        exact keyLe_trans h hk2b
    · have hb : keyLe k k2 = false := by
        cases h2 : keyLe k k2
        · rfl
        · exact absurd h2 h
      rw [hb]
      simp only [Bool.false_eq_true, if_false, List.sorted_cons]
      have hk2k : keyLe k2 k = true :=
        keyLe_total_of_sameKind (hk k2 (List.mem_cons_self _ _)) hb
      constructor
      · intro b hbmem
        rcases mem_kinsert hbmem with rfl | hb2
        · exact hk2k
        · exact (List.sorted_cons.mp hs).1 b hb2
      · exact ih (fun b hb2 => hk b (List.mem_cons_of_mem _ hb2))
          (List.sorted_cons.mp hs).2

theorem keysSortable_iff {l : List Key} :
    keysSortable l = true ↔ ∀ a ∈ l, ∀ b ∈ l, sameKind a b = true := by
  simp [keysSortable, List.all_eq_true]

theorem keysSortable_perm {l1 l2 : List Key} (h : l1.Perm l2) :
    keysSortable l1 = keysSortable l2 := by
  cases h2 : keysSortable l2
  · cases h1 : keysSortable l1
    · rfl
    · exfalso
      rw [keysSortable_iff] at h1
      have : keysSortable l2 = true := keysSortable_iff.mpr
        (fun a ha b hb => h1 a (h.mem_iff.mpr ha) b (h.mem_iff.mpr hb))
      rw [this] at h2; cases h2
  · rw [keysSortable_iff] at h2
    exact keysSortable_iff.mpr
      (fun a ha b hb => h2 a (h.mem_iff.mp ha) b (h.mem_iff.mp hb))

theorem ksort_sorted {l : List Key} (h : keysSortable l = true) :
    List.Sorted (fun a b => keyLe a b = true) (ksort l) := by
  induction l with
  | nil => simp [ksort]
  | cons k rest ih =>
    simp only [ksort]
    rw [keysSortable_iff] at h
    have hrest : keysSortable rest = true := keysSortable_iff.mpr
      (fun a ha b hb => h a (List.mem_cons_of_mem _ ha) b (List.mem_cons_of_mem _ hb))
    refine kinsert_sorted (fun b hb => ?_) (ih hrest)
    have hbmem : b ∈ rest := (ksort_perm rest).mem_iff.mp hb
    exact h k (List.mem_cons_self _ _) b (List.mem_cons_of_mem _ hbmem)

theorem ksort_eq_of_perm {l1 l2 : List Key} (hs : keysSortable l1 = true)
    (h : l1.Perm l2) : ksort l1 = ksort l2 := by
  have hs2 : keysSortable l2 = true := (keysSortable_perm h) ▸ hs
  exact List.eq_of_perm_of_sorted
    ((ksort_perm l1).trans (h.trans (ksort_perm l2).symm))
    (ksort_sorted hs) (ksort_sorted hs2)

/-! ### Association-list lookup facts -/

theorem keyMem_iff {k : Key} {ks : List Key} : keyMem k ks = true ↔ k ∈ ks := by
  induction ks with
  | nil => simp [keyMem]
  | cons k2 rest ih => simp [keyMem, ih]

theorem nodupK_iff {ks : List Key} : nodupK ks = true ↔ ks.Nodup := by
  induction ks with
  | nil => simp [nodupK]
  | cons k rest ih =>
    simp only [nodupK, Bool.and_eq_true, Bool.not_eq_true', List.nodup_cons, ih]
    constructor
    · rintro ⟨h1, h2⟩
      refine ⟨fun hm => ?_, h2⟩
      rw [← keyMem_iff] at hm
      rw [h1] at hm
      cases hm
    · rintro ⟨h1, h2⟩
      refine ⟨?_, h2⟩
      cases hm : keyMem k rest
      · rfl
      · exact absurd (keyMem_iff.mp hm) h1

theorem dictLookup_none_iff {es : List (Key × PyVal)} {k : Key} :
    dictLookup es k = none ↔ k ∉ dictKeys es := by
  induction es with
  | nil => simp [dictLookup, dictKeys]
  | cons e rest ih =>
    obtain ⟨k2, v2⟩ := e
    by_cases hk : k2 = k
    · subst hk
      simp [dictLookup, dictKeys]
    · simp [dictLookup, hk, dictKeys, ih]
      intro h
      exact fun he => hk he.symm

theorem dictLookup_some_of_mem {es : List (Key × PyVal)} {k : Key}
    (h : k ∈ dictKeys es) : ∃ v, dictLookup es k = some v := by
  cases hl : dictLookup es k with
  | none => exact absurd h (dictLookup_none_iff.mp hl)
  | some v => exact ⟨v, rfl⟩

theorem dictLookup_eq_some_of_mem_nodup {es : List (Key × PyVal)} {k : Key}
    {v : PyVal} (hnd : nodupKeys es = true) (h : (k, v) ∈ es) :
    dictLookup es k = some v := by
  induction es with
  | nil => cases h
  | cons e rest ih =>
    obtain ⟨k2, v2⟩ := e
    have hnd2 : nodupKeys rest = true := by
      simp only [nodupKeys, dictKeys, List.map_cons, nodupK, Bool.and_eq_true] at hnd
      exact hnd.2
    rcases List.mem_cons.mp h with heq | h2
    · cases heq
      simp [dictLookup]
    · have hne : k2 ≠ k := by
        intro he
        subst he
        simp only [nodupKeys, dictKeys, List.map_cons, nodupK, Bool.and_eq_true,
          Bool.not_eq_true'] at hnd
        have hmm : keyMem k2 (List.map Prod.fst rest) = true :=
          keyMem_iff.mpr (List.mem_map.mpr ⟨(k2, v), h2, rfl⟩)
        rw [hnd.1] at hmm
        cases hmm
      simp [dictLookup, hne]
      exact ih hnd2 h2

theorem nodupKeys_perm {es es2 : List (Key × PyVal)} (h : es.Perm es2) :
    nodupKeys es = nodupKeys es2 := by
  have hk : (dictKeys es).Perm (dictKeys es2) := h.map Prod.fst
  have hiff : (dictKeys es).Nodup ↔ (dictKeys es2).Nodup := hk.nodup_iff
  simp only [nodupKeys]
  cases h1 : nodupK (dictKeys es) <;> cases h2 : nodupK (dictKeys es2) <;> try rfl
  · exfalso
    have h3 := nodupK_iff.mpr (hiff.mpr (nodupK_iff.mp h2))
    rw [h1] at h3
    cases h3
  · exfalso
    have h3 := nodupK_iff.mpr (hiff.mp (nodupK_iff.mp h1))
    rw [h2] at h3
    cases h3

theorem dictLookup_perm {es es2 : List (Key × PyVal)} (hnd : nodupKeys es = true)
    (h : es.Perm es2) (k : Key) : dictLookup es k = dictLookup es2 k := by
  have hnd2 : nodupKeys es2 = true := (nodupKeys_perm h) ▸ hnd
  cases hl : dictLookup es k with
  | none =>
    have hnm := dictLookup_none_iff.mp hl
    rw [eq_comm]
    apply dictLookup_none_iff.mpr
    intro hmem
    exact hnm (((h.map Prod.fst).mem_iff).mpr hmem)
  | some v =>
    have hmem : (k, v) ∈ es2 := h.mem_iff.mp (dictLookup_mem hl)
    rw [eq_comm]
    exact dictLookup_eq_some_of_mem_nodup hnd2 hmem

theorem lookupMany_spec {es : List (Key × PyVal)} : ∀ {ks : List Key}
    {vs : List PyVal}, lookupMany es ks = .ok vs →
    vs.length = ks.length ∧
      ∀ (j : Nat) (k2 : Key), ks[j]? = some k2 → vs[j]? = dictLookup es k2 := by
  intro ks
  induction ks with
  | nil =>
    intro vs h
    simp only [lookupMany] at h
    cases h
    simp
  | cons k rest ih =>
    intro vs h
    simp only [lookupMany] at h
    cases hl : dictLookup es k with
    | none => rw [hl] at h; cases h
    | some v =>
      rw [hl] at h
      cases hrest : lookupMany es rest with
      | error e => rw [hrest] at h; cases h
      | ok ws =>
        rw [hrest] at h
        cases h
        obtain ⟨hlen, hget⟩ := ih hrest
        refine ⟨by simp [hlen], ?_⟩
        intro j k2 hj
        cases j with
        | zero =>
          simp at hj
          subst hj
          simp [hl]
        | succ j =>
          simp at hj ⊢
          exact hget j k2 hj

theorem lookupMany_ok_of_mem (es : List (Key × PyVal)) (ks : List Key) :
    (∀ k ∈ ks, k ∈ dictKeys es) → ∃ vs, lookupMany es ks = .ok vs := by
  induction ks with
  | nil => exact fun _ => ⟨[], rfl⟩
  | cons k rest ih =>
    intro h
    obtain ⟨v, hv⟩ := dictLookup_some_of_mem (h k (List.mem_cons_self _ _))
    obtain ⟨vs, hvs⟩ := ih (fun k2 hk2 => h k2 (List.mem_cons_of_mem _ hk2))
    exact ⟨v :: vs, by simp [lookupMany, hv, hvs]⟩

theorem zipKV_lookup_of_lookupMany {es : List (Key × PyVal)} : ∀ {ks : List Key}
    {vs : List PyVal}, lookupMany es ks = .ok vs →
    ∀ k ∈ ks, dictLookup (zipKV ks vs) k = dictLookup es k := by
  intro ks
  induction ks with
  | nil => intro vs _ k hk; cases hk
  | cons k0 rest ih =>
    intro vs h k hk
    simp only [lookupMany] at h
    cases hl : dictLookup es k0 with
    | none => rw [hl] at h; cases h
    | some v =>
      rw [hl] at h
      cases hrest : lookupMany es rest with
      | error e => rw [hrest] at h; cases h
      | ok ws =>
        rw [hrest] at h
        cases h
        by_cases hkk : k0 = k
        · subst hkk
          simp [zipKV, dictLookup, hl]
        · simp only [zipKV, dictLookup, if_neg hkk]
          rcases List.mem_cons.mp hk with rfl | hk2
          · exact absurd rfl hkk
          · exact ih hrest k hk2

theorem zipKV_lookup_at_index : ∀ {ks : List Key} {args : List PyVal} {j : Nat}
    {k : Key}, nodupK ks = true → ks[j]? = some k → j < args.length →
    dictLookup (zipKV ks args) k = args[j]? := by
  intro ks
  induction ks with
  | nil => intro args j k _ hj _; simp at hj
  | cons k0 rest ih =>
    intro args j k hnd hj hlen
    cases args with
    | nil => simp at hlen
    | cons a args2 =>
      simp only [nodupK, Bool.and_eq_true, Bool.not_eq_true'] at hnd
      cases j with
      | zero =>
        simp at hj
        subst hj
        simp [zipKV, dictLookup]
      | succ j =>
        simp only [List.getElem?_cons_succ] at hj
        have hkmem : k ∈ rest := by
          have := List.getElem?_mem hj
          exact this
        have hne : k0 ≠ k := by
          intro he
          subst he
          rw [← keyMem_iff] at hkmem
          rw [hnd.1] at hkmem
          cases hkmem
        simp only [zipKV, dictLookup, if_neg hne, List.getElem?_cons_succ]
        exact ih hnd.2 hj (by simpa using hlen)

/-! ### Rebuilding dict entries -/

theorem rebuildEntries_id {result : List (Key × PyVal)} :
    ∀ {es : List (Key × PyVal)},
    (∀ k v0, (k, v0) ∈ es → dictLookup result k = some v0) →
    rebuildEntries result es = .ok es := by
  intro es
  induction es with
  | nil => intro _; rfl
  | cons e rest ih =>
    intro h
    obtain ⟨k, v0⟩ := e
    have hk := h k v0 (List.mem_cons_self _ _)
    simp only [rebuildEntries, hk]
    rw [ih (fun k2 v2 hm => h k2 v2 (List.mem_cons_of_mem _ hm))]

theorem rebuildEntries_ok {result : List (Key × PyVal)} :
    ∀ {es : List (Key × PyVal)},
    (∀ k, k ∈ dictKeys es → ∃ v, dictLookup result k = some v) →
    ∃ es2, rebuildEntries result es = .ok es2 ∧ dictKeys es2 = dictKeys es ∧
      ∀ k, k ∈ dictKeys es → dictLookup es2 k = dictLookup result k := by
  intro es
  induction es with
  | nil => intro _; exact ⟨[], rfl, rfl, by simp [dictKeys]⟩
  | cons e rest ih =>
    intro h
    obtain ⟨k0, v0⟩ := e
    obtain ⟨v, hv⟩ := h k0 (by simp [dictKeys])
    obtain ⟨es2, hes2, hkeys, hlk⟩ := ih (fun k hk => h k (by simp [dictKeys]; right; simpa [dictKeys] using hk))
    refine ⟨(k0, v) :: es2, ?_, ?_, ?_⟩
    · simp only [rebuildEntries, hv, hes2]
    · simp [dictKeys] at hkeys ⊢
      exact hkeys
    · intro k hk
      by_cases hkk : k0 = k
      · subst hkk
        simp [dictLookup, hv]
      · simp only [dictLookup, if_neg hkk]
        simp [dictKeys] at hk
        rcases hk with rfl | hk2
        · exact absurd rfl hkk
        · exact hlk k (by simpa [dictKeys] using hk2)

/-! ### Well-formedness helpers -/

theorem WFl_iff {xs : List PyVal} : WFl xs = true ↔ ∀ x ∈ xs, WFv x = true := by
  induction xs with
  | nil => simp [WFl]
  | cons x rest ih => simp [WFl, ih]

theorem WFes_iff {es : List (Key × PyVal)} :
    WFes es = true ↔ ∀ p ∈ es, WFv p.2 = true := by
  induction es with
  | nil => simp [WFes]
  | cons e rest ih =>
    obtain ⟨k, v⟩ := e
    simp only [WFes, Bool.and_eq_true, ih]
    constructor
    · rintro ⟨h1, h2⟩ p hp
      rcases List.mem_cons.mp hp with rfl | hp2
      · exact h1
      · exact h2 p hp2
    · intro h
      exact ⟨h (k, v) (List.mem_cons_self _ _),
        fun p hp => h p (List.mem_cons_of_mem _ hp)⟩

/-- A structural induction principle for `PyVal` phrased through list
membership, derived by strong induction on `pySize`. -/
theorem pyval_induction {P : PyVal → Prop}
    (hleaf : ∀ a, P (.leaf a))
    (hlist : ∀ xs, (∀ x ∈ xs, P x) → P (.list xs))
    (htuple : ∀ xs, (∀ x ∈ xs, P x) → P (.tuple xs))
    (hnt : ∀ nm fields xs, (∀ x ∈ xs, P x) → P (.namedtuple nm fields xs))
    (hdict : ∀ o es, (∀ p ∈ es, P p.2) → P (.dict o es)) :
    ∀ v, P v := by
  have main : ∀ n v, pySize v ≤ n → P v := by
    intro n
    induction n with
    | zero =>
      intro v hv
      have := pySize_pos v
      omega
    | succ n ih =>
      intro v hv
      cases v with
      | leaf a => exact hleaf a
      | list xs =>
        refine hlist xs (fun x hx => ih x ?_)
        have := pySizeL_le_of_mem hx
        simp [pySize] at hv
        omega
      | tuple xs =>
        refine htuple xs (fun x hx => ih x ?_)
        have := pySizeL_le_of_mem hx
        simp [pySize] at hv
        omega
      | namedtuple nm fields xs =>
        refine hnt nm fields xs (fun x hx => ih x ?_)
        have := pySizeL_le_of_mem hx
        simp [pySize] at hv
        omega
      | dict o es =>
        refine hdict o es (fun p hp => ih p.2 ?_)
        obtain ⟨k, v2⟩ := p
        have := pySizeE_le_of_mem hp
        simp [pySize] at hv ⊢
        omega
  exact fun v => main (pySize v) v (Nat.le_refl _)

/-! ### Classifier facts and children of well-formed values -/

theorem is_iterable_leaf (a : Atom) : is_iterable (.leaf a) = false := by
  cases a <;> rfl

theorem is_iterable_list (xs : List PyVal) : is_iterable (.list xs) = true := rfl

theorem is_iterable_tuple (xs : List PyVal) : is_iterable (.tuple xs) = true := rfl

theorem is_iterable_namedtuple (nm : String) (fields : List String)
    (xs : List PyVal) : is_iterable (.namedtuple nm fields xs) = true := rfl

theorem is_iterable_dict (o : Bool) (es : List (Key × PyVal)) :
    is_iterable (.dict o es) = true := rfl

theorem is_iterable_composite : ∀ {v : PyVal}, (∃ xs, v = .list xs) ∨
    (∃ xs, v = .tuple xs) ∨ (∃ nm fields xs, v = .namedtuple nm fields xs) ∨
    (∃ o es, v = .dict o es) → is_iterable v = true := by
  intro v h
  rcases h with ⟨xs, rfl⟩ | ⟨xs, rfl⟩ | ⟨nm, fields, xs, rfl⟩ | ⟨o, es, rfl⟩ <;> rfl

theorem containsUnsortable_iterable {v : PyVal}
    (h : containsUnsortable v = true) : is_iterable v = true := by
  cases v with
  | leaf a => simp [containsUnsortable] at h
  | list xs => rfl
  | tuple xs => rfl
  | namedtuple nm fields xs => rfl
  | dict o es => rfl

theorem anyUnsortable_iff {xs : List PyVal} :
    anyUnsortable xs = true ↔ ∃ x ∈ xs, containsUnsortable x = true := by
  induction xs with
  | nil => simp [anyUnsortable]
  | cons x rest ih => simp [anyUnsortable, ih]

theorem anyUnsortableE_iff {es : List (Key × PyVal)} :
    anyUnsortableE es = true ↔ ∃ p ∈ es, containsUnsortable p.2 = true := by
  induction es with
  | nil => simp [anyUnsortableE]
  | cons e rest ih =>
    obtain ⟨k, v⟩ := e
    simp only [anyUnsortableE, Bool.or_eq_true, ih]
    constructor
    · rintro (h | ⟨p, hp, h⟩)
      · exact ⟨(k, v), List.mem_cons_self _ _, h⟩
      · exact ⟨p, List.mem_cons_of_mem _ hp, h⟩
    · rintro ⟨p, hp, h⟩
      rcases List.mem_cons.mp hp with rfl | hp2
      · exact Or.inl h
      · exact Or.inr ⟨p, hp2, h⟩

theorem nodupDictsL_iff {xs : List PyVal} :
    nodupDictsL xs = true ↔ ∀ x ∈ xs, nodupDicts x = true := by
  induction xs with
  | nil => simp [nodupDictsL]
  | cons x rest ih => simp [nodupDictsL, ih]

theorem nodupDictsE_iff {es : List (Key × PyVal)} :
    nodupDictsE es = true ↔ ∀ p ∈ es, nodupDicts p.2 = true := by
  induction es with
  | nil => simp [nodupDictsE]
  | cons e rest ih =>
    obtain ⟨k, v⟩ := e
    simp only [nodupDictsE, Bool.and_eq_true, ih]
    constructor
    · rintro ⟨h1, h2⟩ p hp
      rcases List.mem_cons.mp hp with rfl | hp2
      · exact h1
      · exact h2 p hp2
    · intro h
      exact ⟨h (k, v) (List.mem_cons_self _ _),
        fun p hp => h p (List.mem_cons_of_mem _ hp)⟩

/-- Children of a well-formed value are well-formed. -/
theorem WF_yield_children {S : PyVal} {vs : List PyVal} (hwf : WFv S = true)
    (h : _yield_value_from_iterable S = .ok vs) : ∀ v ∈ vs, WFv v = true := by
  intro v hv
  cases S with
  | leaf a =>
    cases a with
    | str s =>
      simp only [_yield_value_from_iterable] at h
      cases h
      simp only [strChars, List.mem_map] at hv
      obtain ⟨c, _, rfl⟩ := hv
      rfl
    | int n => simp [_yield_value_from_iterable] at h
    | bool b => simp [_yield_value_from_iterable] at h
    | ndarray i => simp [_yield_value_from_iterable] at h
    | tensor i => simp [_yield_value_from_iterable] at h
    | obj i => simp [_yield_value_from_iterable] at h
  | list xs =>
    simp only [_yield_value_from_iterable] at h
    cases h
    exact WFl_iff.mp (by simpa [WFv] using hwf) v hv
  | tuple xs =>
    simp only [_yield_value_from_iterable] at h
    cases h
    exact WFl_iff.mp (by simpa [WFv] using hwf) v hv
  | namedtuple nm fields xs =>
    simp only [_yield_value_from_iterable] at h
    cases h
    simp only [WFv, Bool.and_eq_true] at hwf
    exact WFl_iff.mp hwf.2 v hv
  | dict o es =>
    simp only [_yield_value_from_iterable] at h
    cases hs : _sorted es with
    | error e => rw [hs] at h; cases h
    | ok ks =>
      rw [hs] at h
      obtain ⟨k, hk⟩ := lookupMany_mem h hv
      have hmem := dictLookup_mem hk
      simp only [WFv, Bool.and_eq_true] at hwf
      exact WFes_iff.mp hwf.2 (k, v) hmem

/-- `_yield_value_from_iterable` succeeds on every well-formed iterable
value. -/
theorem WF_yield_ok {S : PyVal} (hwf : WFv S = true) (hi : is_iterable S = true) :
    ∃ vs, _yield_value_from_iterable S = .ok vs := by
  cases S with
  | leaf a => rw [is_iterable_leaf] at hi; cases hi
  | list xs => exact ⟨xs, rfl⟩
  | tuple xs => exact ⟨xs, rfl⟩
  | namedtuple nm fields xs => exact ⟨xs, rfl⟩
  | dict o es =>
    simp only [WFv, Bool.and_eq_true] at hwf
    obtain ⟨⟨hsort, _⟩, _⟩ := hwf
    obtain ⟨vs, hvs⟩ := lookupMany_ok_of_mem es (ksort (dictKeys es))
      (fun k hk => (ksort_perm (dictKeys es)).mem_iff.mp hk)
    exact ⟨vs, by simp [_yield_value_from_iterable, _sorted, hsort, hvs]⟩

/-- A well-formed value contains no unsortable-key dict. -/
theorem WF_not_unsortable : ∀ {S : PyVal}, WFv S = true →
    containsUnsortable S = false := by
  have main : ∀ S, WFv S = true → containsUnsortable S = false := by
    apply pyval_induction
    · intro a _
      rfl
    · intro xs ih hwf
      simp only [containsUnsortable]
      rw [← Bool.not_eq_true, anyUnsortable_iff]
      rintro ⟨x, hx, hc⟩
      rw [ih x hx (WFl_iff.mp (by simpa [WFv] using hwf) x hx)] at hc
      cases hc
    · intro xs ih hwf
      simp only [containsUnsortable]
      rw [← Bool.not_eq_true, anyUnsortable_iff]
      rintro ⟨x, hx, hc⟩
      rw [ih x hx (WFl_iff.mp (by simpa [WFv] using hwf) x hx)] at hc
      cases hc
    · intro nm fields xs ih hwf
      simp only [containsUnsortable]
      rw [← Bool.not_eq_true, anyUnsortable_iff]
      rintro ⟨x, hx, hc⟩
      simp only [WFv, Bool.and_eq_true] at hwf
      rw [ih x hx (WFl_iff.mp hwf.2 x hx)] at hc
      cases hc
    · intro o es ih hwf
      simp only [WFv, Bool.and_eq_true] at hwf
      obtain ⟨⟨hsort, _⟩, hes⟩ := hwf
      simp only [containsUnsortable, hsort, Bool.not_true, Bool.false_or]
      rw [← Bool.not_eq_true, anyUnsortableE_iff]
      rintro ⟨p, hp, hc⟩
      rw [ih p hp (WFes_iff.mp hes p hp)] at hc
      cases hc
  exact fun {S} => main S

/-- A well-formed value has distinct keys in all its dicts. -/
theorem WF_nodupDicts : ∀ {S : PyVal}, WFv S = true → nodupDicts S = true := by
  have main : ∀ S, WFv S = true → nodupDicts S = true := by
    apply pyval_induction
    · intro a _
      rfl
    · intro xs ih hwf
      simp only [nodupDicts]
      exact nodupDictsL_iff.mpr
        (fun x hx => ih x hx (WFl_iff.mp (by simpa [WFv] using hwf) x hx))
    · intro xs ih hwf
      simp only [nodupDicts]
      exact nodupDictsL_iff.mpr
        (fun x hx => ih x hx (WFl_iff.mp (by simpa [WFv] using hwf) x hx))
    · intro nm fields xs ih hwf
      simp only [WFv, Bool.and_eq_true] at hwf
      simp only [nodupDicts]
      exact nodupDictsL_iff.mpr (fun x hx => ih x hx (WFl_iff.mp hwf.2 x hx))
    · intro o es ih hwf
      simp only [WFv, Bool.and_eq_true] at hwf
      obtain ⟨⟨_, hnd⟩, hes⟩ := hwf
      simp only [nodupDicts, Bool.and_eq_true]
      exact ⟨hnd, nodupDictsE_iff.mpr
        (fun p hp => ih p hp (WFes_iff.mp hes p hp))⟩
  exact fun {S} => main S

theorem lookupMany_val_mem {es : List (Key × PyVal)} : ∀ {ks : List Key}
    {vs : List PyVal} {k : Key} {v : PyVal}, lookupMany es ks = .ok vs →
    k ∈ ks → dictLookup es k = some v → v ∈ vs := by
  intro ks
  induction ks with
  | nil => intro vs k v _ hk _; cases hk
  | cons k0 rest ih =>
    intro vs k v h hk hl
    simp only [lookupMany] at h
    cases hl0 : dictLookup es k0 with
    | none => rw [hl0] at h; cases h
    | some w =>
      rw [hl0] at h
      cases hrest : lookupMany es rest with
      | error e => rw [hrest] at h; cases h
      | ok ws =>
        rw [hrest] at h
        cases h
        rcases List.mem_cons.mp hk with rfl | hk2
        · rw [hl] at hl0
          cases hl0
          exact List.mem_cons_self _ _
        · exact List.mem_cons_of_mem _ (ih hrest hk2 hl)

/-- Children of a value whose dicts all have distinct keys again have that
property. -/
theorem yield_nodupDicts {S : PyVal} {vs : List PyVal} (hnd : nodupDicts S = true)
    (h : _yield_value_from_iterable S = .ok vs) : ∀ v ∈ vs, nodupDicts v = true := by
  intro v hv
  cases S with
  | leaf a =>
    cases a with
    | str s =>
      simp only [_yield_value_from_iterable] at h
      cases h
      simp only [strChars, List.mem_map] at hv
      obtain ⟨c, _, rfl⟩ := hv
      rfl
    | int n => simp [_yield_value_from_iterable] at h
    | bool b => simp [_yield_value_from_iterable] at h
    | ndarray i => simp [_yield_value_from_iterable] at h
    | tensor i => simp [_yield_value_from_iterable] at h
    | obj i => simp [_yield_value_from_iterable] at h
  | list xs =>
    simp only [_yield_value_from_iterable] at h
    cases h
    exact nodupDictsL_iff.mp (by simpa [nodupDicts] using hnd) v hv
  | tuple xs =>
    simp only [_yield_value_from_iterable] at h
    cases h
    exact nodupDictsL_iff.mp (by simpa [nodupDicts] using hnd) v hv
  | namedtuple nm fields xs =>
    simp only [_yield_value_from_iterable] at h
    cases h
    exact nodupDictsL_iff.mp (by simpa [nodupDicts] using hnd) v hv
  | dict o es =>
    simp only [_yield_value_from_iterable] at h
    cases hs : _sorted es with
    | error e => rw [hs] at h; cases h
    | ok ks =>
      rw [hs] at h
      obtain ⟨k, hk⟩ := lookupMany_mem h hv
      simp only [nodupDicts, Bool.and_eq_true] at hnd
      exact nodupDictsE_iff.mp hnd.2 (k, v) (dictLookup_mem hk)

/-- On an iterable value, `_yield_value_from_iterable` can only fail with
the unsortable-keys `TypeError`, and only when the value itself is a dict
with incomparable keys. -/
theorem yield_error_unsortable {S : PyVal} {e : PyError}
    (hi : is_iterable S = true) (h : _yield_value_from_iterable S = .error e) :
    e = .typeError "nest only supports dicts with sortable keys." ∧
      containsUnsortable S = true := by
  cases S with
  | leaf a => rw [is_iterable_leaf] at hi; cases hi
  | list xs => simp [_yield_value_from_iterable] at h
  | tuple xs => simp [_yield_value_from_iterable] at h
  | namedtuple nm fields xs => simp [_yield_value_from_iterable] at h
  | dict o es =>
    simp only [_yield_value_from_iterable] at h
    by_cases hsort : keysSortable (dictKeys es) = true
    · obtain ⟨vs, hvs⟩ := lookupMany_ok_of_mem es (ksort (dictKeys es))
        (fun k hk => (ksort_perm (dictKeys es)).mem_iff.mp hk)
      simp [_sorted, hsort, hvs] at h
    · have hsf : keysSortable (dictKeys es) = false := by
        cases h2 : keysSortable (dictKeys es)
        · rfl
        · exact absurd h2 hsort
      simp only [_sorted, hsf, Bool.false_eq_true, if_false] at h
      cases h
      exact ⟨rfl, by simp [containsUnsortable, hsf]⟩

/-- When `_yield_value_from_iterable` succeeds and the dicts of `S` have
distinct keys: `S` contains an unsortable dict exactly when one of its
children does. -/
theorem yield_unsortable_children {S : PyVal} {vs : List PyVal}
    (hi : is_iterable S = true) (hnd : nodupDicts S = true)
    (h : _yield_value_from_iterable S = .ok vs) :
    (containsUnsortable S = true ↔ ∃ v ∈ vs, containsUnsortable v = true) := by
  cases S with
  | leaf a => rw [is_iterable_leaf] at hi; cases hi
  | list xs =>
    simp only [_yield_value_from_iterable] at h
    cases h
    simp [containsUnsortable, anyUnsortable_iff]
  | tuple xs =>
    simp only [_yield_value_from_iterable] at h
    cases h
    simp [containsUnsortable, anyUnsortable_iff]
  | namedtuple nm fields xs =>
    simp only [_yield_value_from_iterable] at h
    cases h
    simp [containsUnsortable, anyUnsortable_iff]
  | dict o es =>
    simp only [_yield_value_from_iterable] at h
    cases hs : _sorted es with
    | error e => rw [hs] at h; cases h
    | ok ks =>
      rw [hs] at h
      have hsort : keysSortable (dictKeys es) = true := by
        by_contra hc
        simp only [_sorted] at hs
        cases h2 : keysSortable (dictKeys es)
        · rw [h2] at hs
          simp at hs
        · exact hc h2
      have hks : ks = ksort (dictKeys es) := by
        simp only [_sorted, hsort, if_true] at hs
        cases hs
        rfl
      subst hks
      simp only [nodupDicts, Bool.and_eq_true] at hnd
      simp only [containsUnsortable, hsort, Bool.not_true, Bool.false_or]
      rw [anyUnsortableE_iff]
      constructor
      · rintro ⟨⟨k, v⟩, hp, hc⟩
        have hl : dictLookup es k = some v :=
          dictLookup_eq_some_of_mem_nodup hnd.1 hp
        have hkmem : k ∈ ksort (dictKeys es) :=
          (ksort_perm (dictKeys es)).mem_iff.mpr
            (List.mem_map.mpr ⟨(k, v), hp, rfl⟩)
        exact ⟨v, lookupMany_val_mem h hkmem hl, hc⟩
      · rintro ⟨v, hv, hc⟩
        obtain ⟨k, hk⟩ := lookupMany_mem h hv
        exact ⟨(k, v), dictLookup_mem hk, hc⟩

/-- The per-child loop of flattening, given the inductive hypothesis for
smaller fuel: it errors with the unsortable-keys message when some child
contains an unsortable dict, and succeeds when none does. -/
theorem flatKids_total (f : Nat)
    (IH : ∀ v, pySize v ≤ f → is_iterable v = true → nodupDicts v = true →
      (containsUnsortable v = true → flatNestF f v =
        .error (.typeError "nest only supports dicts with sortable keys.")) ∧
      (containsUnsortable v = false → ∃ l, flatNestF f v = .ok l)) :
    ∀ vs : List PyVal, (∀ v ∈ vs, is_iterable v = true → pySize v ≤ f) →
      (∀ v ∈ vs, nodupDicts v = true) →
      ((∃ v ∈ vs, containsUnsortable v = true) → flatKidsWith (flatNestF f) vs =
        .error (.typeError "nest only supports dicts with sortable keys.")) ∧
      ((∀ v ∈ vs, containsUnsortable v = false) →
        ∃ l, flatKidsWith (flatNestF f) vs = .ok l) := by
  intro vs
  induction vs with
  | nil =>
    intro _ _
    refine ⟨?_, fun _ => ⟨[], rfl⟩⟩
    rintro ⟨v, hv, _⟩
    cases hv
  | cons v rest ih =>
    intro hsz hnd
    obtain ⟨ihE, ihOk⟩ := ih
      (fun u hu hiu => hsz u (List.mem_cons_of_mem _ hu) hiu)
      (fun u hu => hnd u (List.mem_cons_of_mem _ hu))
    constructor
    · rintro ⟨w, hw, hcw⟩
      rcases List.mem_cons.mp hw with rfl | hw2
      · have hiw : is_iterable w = true := containsUnsortable_iterable hcw
        have herr := (IH w (hsz w (List.mem_cons_self _ _) hiw) hiw
          (hnd w (List.mem_cons_self _ _))).1 hcw
        simp [flatKidsWith, hiw, herr]
      · cases hcv : containsUnsortable v
        · cases hiv : is_iterable v
          · simp [flatKidsWith, hiv, ihE ⟨w, hw2, hcw⟩]
          · obtain ⟨l1, hl1⟩ := (IH v (hsz v (List.mem_cons_self _ _) hiv) hiv
              (hnd v (List.mem_cons_self _ _))).2 hcv
            simp [flatKidsWith, hiv, hl1, ihE ⟨w, hw2, hcw⟩]
        · have hiv := containsUnsortable_iterable hcv
          have herr := (IH v (hsz v (List.mem_cons_self _ _) hiv) hiv
            (hnd v (List.mem_cons_self _ _))).1 hcv
          simp [flatKidsWith, hiv, herr]
    · intro hall
      have hcv := hall v (List.mem_cons_self _ _)
      obtain ⟨l2, hl2⟩ := ihOk (fun u hu => hall u (List.mem_cons_of_mem _ hu))
      cases hiv : is_iterable v
      · exact ⟨v :: l2, by simp [flatKidsWith, hiv, hl2]⟩
      · obtain ⟨l1, hl1⟩ := (IH v (hsz v (List.mem_cons_self _ _) hiv) hiv
          (hnd v (List.mem_cons_self _ _))).2 hcv
        exact ⟨l1 ++ l2, by simp [flatKidsWith, hiv, hl1, hl2]⟩

/-- Totality of the flattening core on iterable values whose dicts have
distinct keys: it raises exactly the unsortable-keys `TypeError` when an
unsortable dict is present, and succeeds otherwise. -/
theorem flatNestF_total : ∀ (f : Nat) (S : PyVal), pySize S ≤ f →
    is_iterable S = true → nodupDicts S = true →
    (containsUnsortable S = true → flatNestF f S =
      .error (.typeError "nest only supports dicts with sortable keys.")) ∧
    (containsUnsortable S = false → ∃ l, flatNestF f S = .ok l) := by
  intro f
  induction f with
  | zero =>
    intro S hsz
    have := pySize_pos S
    omega
  | succ f ihf =>
    intro S hsz hi hnd
    cases hy : _yield_value_from_iterable S with
    | error e =>
      obtain ⟨rfl, hcu⟩ := yield_error_unsortable hi hy
      constructor
      · intro _
        simp [flatNestF, hy]
      · intro hc
        rw [hcu] at hc
        cases hc
    | ok vs =>
      have hchild := yield_unsortable_children hi hnd hy
      have hsz2 : ∀ v ∈ vs, is_iterable v = true → pySize v ≤ f := by
        intro v hv hiv
        have := yield_value_size hy hv hiv
        omega
      obtain ⟨kidsE, kidsOk⟩ := flatKids_total f
        (fun v hv hiv hndv => ihf v hv hiv hndv) vs hsz2
        (yield_nodupDicts hnd hy)
      constructor
      · intro hcu
        have := kidsE (hchild.mp hcu)
        simp [flatNestF, hy, this]
      · intro hcu
        have hnone : ∀ v ∈ vs, containsUnsortable v = false := by
          intro v hv
          cases hc : containsUnsortable v
          · rfl
          · exact absurd (hchild.mpr ⟨v, hv, hc⟩) (by rw [hcu]; simp)
        obtain ⟨l, hl⟩ := kidsOk hnone
        exact ⟨l, by simp [flatNestF, hy, hl]⟩

/-! ### Rebuilding a well-formed value from its own children gives it back -/

theorem iterable_like_id {S : PyVal} {vs : List PyVal} (hwf : WFv S = true)
    (hi : is_iterable S = true) (h : _yield_value_from_iterable S = .ok vs) :
    _iterable_like S vs = .ok S := by
  cases S with
  | leaf a => rw [is_iterable_leaf] at hi; cases hi
  | list xs =>
    simp only [_yield_value_from_iterable] at h
    cases h
    rfl
  | tuple xs =>
    simp only [_yield_value_from_iterable] at h
    cases h
    rfl
  | namedtuple nm fields xs =>
    simp only [_yield_value_from_iterable] at h
    cases h
    simp only [WFv, Bool.and_eq_true, beq_iff_eq] at hwf
    simp [_iterable_like, hwf.1]
  | dict o es =>
    simp only [_yield_value_from_iterable] at h
    cases hs : _sorted es with
    | error e => rw [hs] at h; cases h
    | ok ks =>
      rw [hs] at h
      simp only [WFv, Bool.and_eq_true] at hwf
      obtain ⟨⟨hsort, hnd⟩, _⟩ := hwf
      have hksperm : ks.Perm (dictKeys es) := by
        have : ks = ksort (dictKeys es) := by
          simp only [_sorted, hsort, if_true] at hs
          cases hs
          rfl
        rw [this]
        exact ksort_perm _
      have hrb : rebuildEntries (zipKV ks vs) es = .ok es := by
        apply rebuildEntries_id
        intro k v0 hm
        have hkmem : k ∈ ks :=
          hksperm.mem_iff.mpr (List.mem_map.mpr ⟨(k, v0), hm, rfl⟩)
        rw [zipKV_lookup_of_lookupMany h k hkmem]
        exact dictLookup_eq_some_of_mem_nodup hnd hm
      simp [_iterable_like, hs, hrb]

/-! ### Packing inverts flattening -/

/-- The per-child loop of packing, run on a flat list that carries the
flattening of the very children being packed: it reproduces the children
and consumes exactly their leaf count. -/
theorem packKids_roundtrip (f : Nat) (F : List PyVal)
    (IH : ∀ S, pySize S ≤ f → WFv S = true → is_iterable S = true →
      ∀ l, flatNestF f S = .ok l →
      ∀ i : Nat, (∀ j : Nat, j < l.length → F[i + j]? = l[j]?) →
      ∃ vs, _yield_value_from_iterable S = .ok vs ∧
        packNestF f S (.list F) i = .ok (i + l.length, vs)) :
    ∀ vs : List PyVal, (∀ v ∈ vs, WFv v = true) →
      (∀ v ∈ vs, is_iterable v = true → pySize v ≤ f) →
      ∀ l, flatKidsWith (flatNestF f) vs = .ok l →
      ∀ i : Nat, (∀ j : Nat, j < l.length → F[i + j]? = l[j]?) →
      packKidsWith (packNestF f) (.list F) vs i = .ok (i + l.length, vs) := by
  intro vs
  induction vs with
  | nil =>
    intro _ _ l h i _
    simp only [flatKidsWith] at h
    cases h
    simp [packKidsWith]
  | cons v rest ih =>
    intro hwf hsz l h i hseg
    simp only [flatKidsWith] at h
    cases hiv : is_iterable v with
    | true =>
      rw [hiv] at h
      simp only [if_true] at h
      cases h1 : flatNestF f v with
      | error e => rw [h1] at h; cases h
      | ok l1 =>
        rw [h1] at h
        cases h2 : flatKidsWith (flatNestF f) rest with
        | error e => rw [h2] at h; cases h
        | ok l2 =>
          rw [h2] at h
          cases h
          have hseg1 : ∀ j : Nat, j < l1.length → F[i + j]? = l1[j]? := by
            intro j hj
            have := hseg j (by simp [List.length_append]; omega)
            rwa [List.getElem?_append_left hj] at this
          obtain ⟨cvs, hyv, hpack⟩ := IH v (hsz v (List.mem_cons_self _ _) hiv)
            (hwf v (List.mem_cons_self _ _)) hiv l1 h1 i hseg1
          have hlike : _iterable_like v cvs = .ok v :=
            iterable_like_id (hwf v (List.mem_cons_self _ _)) hiv hyv
          have hseg2 : ∀ j : Nat, j < l2.length → F[(i + l1.length) + j]? = l2[j]? := by
            intro j hj
            have := hseg (l1.length + j) (by simp [List.length_append]; omega)
            rw [List.getElem?_append_right (by omega)] at this
            simp only [Nat.add_sub_cancel_left] at this
            rwa [← Nat.add_assoc] at this
          have hrest := ih (fun u hu => hwf u (List.mem_cons_of_mem _ hu))
            (fun u hu hiu => hsz u (List.mem_cons_of_mem _ hu) hiu)
            l2 h2 (i + l1.length) hseg2
          simp only [packKidsWith, hiv, if_true, hpack, hlike, hrest]
          simp [List.length_append]
          omega
    | false =>
      rw [hiv] at h
      simp only [Bool.false_eq_true, if_false] at h
      cases h2 : flatKidsWith (flatNestF f) rest with
      | error e => rw [h2] at h; cases h
      | ok l2 =>
        rw [h2] at h
        cases h
        have hF0 : F[i]? = some v := by
          have := hseg 0 (by simp)
          simpa using this
        have hseg2 : ∀ j : Nat, j < l2.length → F[(i + 1) + j]? = l2[j]? := by
          intro j hj
          have h3 := hseg (j + 1) (by simp; omega)
          simp only [List.singleton_append, List.getElem?_cons_succ] at h3
          rwa [show i + (j + 1) = (i + 1) + j by omega] at h3
        have hrest := ih (fun u hu => hwf u (List.mem_cons_of_mem _ hu))
          (fun u hu hiu => hsz u (List.mem_cons_of_mem _ hu) hiu)
          l2 h2 (i + 1) hseg2
        simp only [packKidsWith, hiv, Bool.false_eq_true, if_false,
          getItem, hF0, hrest]
        simp
        omega

/-- The packing core inverts the flattening core: on a well-formed iterable
value whose flattening occupies positions `i, i+1, ...` of the flat list,
packing from position `i` consumes exactly the flattening's length and
reproduces the value's children. -/
theorem packNestF_roundtrip : ∀ (f : Nat) (S : PyVal), pySize S ≤ f →
    WFv S = true → is_iterable S = true →
    ∀ l, flatNestF f S = .ok l →
    ∀ (F : List PyVal) (i : Nat), (∀ j : Nat, j < l.length → F[i + j]? = l[j]?) →
    ∃ vs, _yield_value_from_iterable S = .ok vs ∧
      packNestF f S (.list F) i = .ok (i + l.length, vs) := by
  intro f
  induction f with
  | zero =>
    intro S hsz
    have := pySize_pos S
    omega
  | succ f ihf =>
    intro S hsz hwf hi l h F i hseg
    simp only [flatNestF] at h
    cases hy : _yield_value_from_iterable S with
    | error e => rw [hy] at h; cases h
    | ok vs =>
      rw [hy] at h
      have hkids := packKids_roundtrip f F
        (fun T hT hwfT hiT l2 h2 i2 hseg2 => ihf T hT hwfT hiT l2 h2 F i2 hseg2)
        vs (WF_yield_children hwf hy)
        (fun v hv hiv => by
          have := yield_value_size hy hv hiv
          omega)
        l h i hseg
      exact ⟨vs, rfl, by simp [packNestF, hy, hkids]⟩

/-- Flattening succeeds on every well-formed value. -/
theorem flatten_ok_of_WF {S : PyVal} (hwf : WFv S = true) :
    ∃ l, flatten_iterable S = .ok l := by
  cases hi : is_iterable S with
  | false => exact ⟨[S], by simp [flatten_iterable, hi]⟩
  | true =>
    obtain ⟨_, hok⟩ := flatNestF_total (pySize S) S (Nat.le_refl _) hi
      (WF_nodupDicts hwf)
    obtain ⟨l, hl⟩ := hok (WF_not_unsortable hwf)
    exact ⟨l, by simp [flatten_iterable, hi, _yield_flat_nest_from_iterable, hl]⟩

/-- `pack_iterable_as` rejects a non-iterable flat argument up front. -/
theorem pack_flat_not_iterable {T fv : PyVal} (h : is_iterable fv = false) :
    pack_iterable_as T fv = .error (.typeError "flat_iterable must be an iterable") := by
  simp [pack_iterable_as, h]

/-- Claim C1: round-trip law.  For every structure `S` built by nesting
lists, tuples, namedtuples, and dicts with pairwise-comparable (and, as in
any real Python dict, pairwise-distinct) keys, `pack_iterable_as S
(flatten_iterable S)` succeeds and returns a value equal to `S` — the same
concrete container kinds, the same nesting, the same leaf values at the
same positions and keys (equality of `PyVal` is exactly that). -/
theorem C1_pack_flatten_round_trip (S : PyVal) (hwf : WFv S = true) :
    ∃ l, flatten_iterable S = .ok l ∧ pack_iterable_as S (.list l) = .ok S := by
  cases hi : is_iterable S with
  | false =>
    refine ⟨[S], by simp [flatten_iterable, hi], ?_⟩
    simp [pack_iterable_as, hi, pyLen, getItem, is_iterable_list]
  | true =>
    obtain ⟨_, hok⟩ := flatNestF_total (pySize S) S (Nat.le_refl _) hi
      (WF_nodupDicts hwf)
    obtain ⟨l, hl⟩ := hok (WF_not_unsortable hwf)
    have hflat : flatten_iterable S = .ok l := by
      simp [flatten_iterable, hi, _yield_flat_nest_from_iterable, hl]
    obtain ⟨vs, hy, hpack⟩ := packNestF_roundtrip (pySize S) S (Nat.le_refl _)
      hwf hi l hl l 0 (fun j hj => by simp)
    have hlike := iterable_like_id hwf hi hy
    refine ⟨l, hflat, ?_⟩
    simp [pack_iterable_as, hi, hflat, pyLen, is_iterable_list,
      _packed_iterable_nest_with_indices, hpack, hlike]

/-- Witness for C1 at the nested example
`["a", {"y": 2, "x": 1}, ("b", "c")]`. -/
theorem C1_pack_flatten_round_trip_witness :
    WFv (.list [.leaf (.str "a"),
      .dict false [(.str "y", .leaf (.int 2)), (.str "x", .leaf (.int 1))],
      .tuple [.leaf (.str "b"), .leaf (.str "c")]]) = true ∧
    ∃ l, flatten_iterable (.list [.leaf (.str "a"),
        .dict false [(.str "y", .leaf (.int 2)), (.str "x", .leaf (.int 1))],
        .tuple [.leaf (.str "b"), .leaf (.str "c")]]) = .ok l ∧
      pack_iterable_as (.list [.leaf (.str "a"),
        .dict false [(.str "y", .leaf (.int 2)), (.str "x", .leaf (.int 1))],
        .tuple [.leaf (.str "b"), .leaf (.str "c")]]) (.list l) =
      .ok (.list [.leaf (.str "a"),
        .dict false [(.str "y", .leaf (.int 2)), (.str "x", .leaf (.int 1))],
        .tuple [.leaf (.str "b"), .leaf (.str "c")]]) :=
  ⟨by decide, C1_pack_flatten_round_trip _ (by decide)⟩

/-- Claim C5: scalar template.  For a non-composite template (any leaf),
`pack_iterable_as` returns the single element of a one-element flat list,
and raises the `ValueError`-class arity error (with the scalar-arity
message) for a flat list of any other length, zero included. -/
theorem C5_scalar_template :
    (∀ (a : Atom) (x : PyVal),
      pack_iterable_as (.leaf a) (.list [x]) = .ok x) ∧
    (∀ (a : Atom) (l : List PyVal), l.length ≠ 1 →
      pack_iterable_as (.leaf a) (.list l) =
        .error (.valueError (scalarArityMsg l.length))) := by
  constructor
  · intro a x
    simp [pack_iterable_as, is_iterable_leaf, is_iterable_list, pyLen, getItem]
  · intro a l h
    simp [pack_iterable_as, is_iterable_leaf, is_iterable_list, pyLen, h]

/-- Witness for C5: `pack(5, [7]) = 7` and `pack(5, [7, 8])` fails with
the scalar arity error. -/
theorem C5_scalar_template_witness :
    pack_iterable_as (.leaf (.int 5)) (.list [.leaf (.int 7)]) =
      .ok (.leaf (.int 7)) ∧
    pack_iterable_as (.leaf (.int 5)) (.list [.leaf (.int 7), .leaf (.int 8)]) =
      .error (.valueError (scalarArityMsg 2)) :=
  ⟨C5_scalar_template.1 (.int 5) (.leaf (.int 7)),
   C5_scalar_template.2 (.int 5) [.leaf (.int 7), .leaf (.int 8)] (by decide)⟩

/-- Claim C7: leaf behavior of flatten.  Every value classified as
non-composite — every leaf, including strings, numpy arrays and tensor
handles — is never classified iterable, and `flatten_iterable` returns the
single-element list containing the value itself (so it is never iterated
into), even though strings, arrays and tensors do support host-level
element iteration (`hasIter`). -/
theorem C7_flatten_leaf :
    (∀ a : Atom, is_iterable (.leaf a) = false ∧
      flatten_iterable (.leaf a) = .ok [.leaf a]) ∧
    (∀ s, hasIter (.leaf (.str s)) = true) ∧
    (∀ i, hasIter (.leaf (.ndarray i)) = true) ∧
    (∀ i, hasIter (.leaf (.tensor i)) = true) := by
  refine ⟨fun a => ⟨is_iterable_leaf a, ?_⟩, fun s => rfl, fun i => rfl, fun i => rfl⟩
  simp [flatten_iterable, is_iterable_leaf a]

/-- Claim C8: classifier totality and values.  `is_iterable` is a total
Boolean function of its argument (it is a Lean function into `Bool`, so it
never raises and has no side effects); it returns false for every string,
numpy array and tensor handle, false for every value not supporting
host-level iteration, and true for every other value that supports
iteration (every container). -/
theorem C8_classifier_total :
    (∀ v, is_iterable v = true ∨ is_iterable v = false) ∧
    (∀ s, is_iterable (.leaf (.str s)) = false) ∧
    (∀ i, is_iterable (.leaf (.ndarray i)) = false) ∧
    (∀ i, is_iterable (.leaf (.tensor i)) = false) ∧
    (∀ v, hasIter v = false → is_iterable v = false) ∧
    (∀ v, hasIter v = true → isOpaqueLeafKind v = false → is_iterable v = true) := by
  refine ⟨fun v => ?_, fun s => rfl, fun i => rfl, fun i => rfl,
    fun v h => ?_, fun v h1 h2 => ?_⟩
  · cases h : is_iterable v
    · exact Or.inr rfl
    · exact Or.inl rfl
  · simp [is_iterable, h]
  · simp [is_iterable, h1, h2]

/-- Witness for C8 at concrete inputs: an int leaf does not support
iteration and is classified non-iterable; an empty list supports iteration,
is not an opaque leaf kind, and is classified iterable. -/
theorem C8_classifier_total_witness :
    (hasIter (.leaf (.int 0)) = false ∧ is_iterable (.leaf (.int 0)) = false) ∧
    (hasIter (.list []) = true ∧ isOpaqueLeafKind (.list []) = false ∧
      is_iterable (.list []) = true) :=
  ⟨⟨rfl, C8_classifier_total.2.2.2.2.1 (.leaf (.int 0)) rfl⟩,
   ⟨rfl, rfl, C8_classifier_total.2.2.2.2.2 (.list []) rfl rfl⟩⟩

/-- Claim C9: `NotIterable` precondition.  For every template,
`pack_iterable_as` raises the `TypeError` "flat_iterable must be an
iterable" when the flat argument is not classified iterable; the error is
produced by the very first check, before any reconstruction, so no output
is produced. -/
theorem C9_pack_requires_iterable (T fv : PyVal) (h : is_iterable fv = false) :
    pack_iterable_as T fv =
      .error (.typeError "flat_iterable must be an iterable") :=
  pack_flat_not_iterable h

/-- Witness for C9: packing any template with an int leaf as the flat
argument fails with the not-iterable `TypeError`. -/
theorem C9_pack_requires_iterable_witness :
    is_iterable (.leaf (.int 3)) = false ∧
    pack_iterable_as (.leaf (.int 5)) (.leaf (.int 3)) =
      .error (.typeError "flat_iterable must be an iterable") :=
  ⟨rfl, C9_pack_requires_iterable (.leaf (.int 5)) (.leaf (.int 3)) rfl⟩

/-- Claim C10: because `pack_iterable_as` validates its flat argument with
the same classifier that marks opaque leaves, passing a string, a numpy
array, or a tensor handle as the flat argument always raises the
not-iterable `TypeError` — even though each of these supports host-level
iteration (`hasIter`) — so a flat list can never be supplied in one of
these forms. -/
theorem C10_opaque_flat_rejected :
    (∀ (T : PyVal) (s : String),
      pack_iterable_as T (.leaf (.str s)) =
        .error (.typeError "flat_iterable must be an iterable") ∧
      hasIter (.leaf (.str s)) = true) ∧
    (∀ (T : PyVal) (i : Nat),
      pack_iterable_as T (.leaf (.ndarray i)) =
        .error (.typeError "flat_iterable must be an iterable") ∧
      hasIter (.leaf (.ndarray i)) = true) ∧
    (∀ (T : PyVal) (i : Nat),
      pack_iterable_as T (.leaf (.tensor i)) =
        .error (.typeError "flat_iterable must be an iterable") ∧
      hasIter (.leaf (.tensor i)) = true) :=
  ⟨fun _ _ => ⟨pack_flat_not_iterable rfl, rfl⟩,
   fun _ _ => ⟨pack_flat_not_iterable rfl, rfl⟩,
   fun _ _ => ⟨pack_flat_not_iterable rfl, rfl⟩⟩

/-! ### Unfolding laws for `flatten_iterable` -/

theorem flatten_list_unfold (xs : List PyVal) :
    flatten_iterable (.list xs) = flatKidsWith (flatNestF (pySizeL xs)) xs := by
  show flatNestF (pySize (.list xs)) (.list xs) = _
  have h : pySize (.list xs) = pySizeL xs + 1 := by
    simp [pySize]
    omega
  rw [h]
  simp [flatNestF, _yield_value_from_iterable]

theorem flatKids_fuel (f g : Nat) {vs : List PyVal}
    (h : ∀ v ∈ vs, is_iterable v = true → pySize v ≤ f ∧ pySize v ≤ g) :
    flatKidsWith (flatNestF f) vs = flatKidsWith (flatNestF g) vs :=
  flatKidsWith_congr (fun v hv hi =>
    flatNestF_stable f g v (h v hv hi).1 (h v hv hi).2)

/-- Flattening a list is the left-to-right concatenation of the flattenings
of its elements (stated for the head/tail decomposition). -/
theorem flatten_cons {x : PyVal} {xs : List PyVal} {l1 l2 : List PyVal}
    (h1 : flatten_iterable x = .ok l1)
    (h2 : flatten_iterable (.list xs) = .ok l2) :
    flatten_iterable (.list (x :: xs)) = .ok (l1 ++ l2) := by
  rw [flatten_list_unfold]
  have hhead : (if is_iterable x then flatNestF (pySizeL (x :: xs)) x
      else .ok [x]) = .ok l1 := by
    cases hi : is_iterable x with
    | false =>
      simp only [Bool.false_eq_true, if_false]
      simp [flatten_iterable, hi] at h1
      rw [h1]
    | true =>
      simp only [if_true]
      rw [flatNestF_stable (pySizeL (x :: xs)) (pySize x) x
        (by simp only [pySizeL]; omega) (Nat.le_refl _)]
      simpa [flatten_iterable, hi, _yield_flat_nest_from_iterable] using h1
  have htail : flatKidsWith (flatNestF (pySizeL (x :: xs))) xs = .ok l2 := by
    rw [flatKids_fuel _ (pySizeL xs) (fun v hv hi => ⟨by
      have := pySizeL_le_of_mem hv
      simp only [pySizeL]
      omega, pySizeL_le_of_mem hv⟩)]
    rw [← flatten_list_unfold]
    exact h2
  simp [flatKidsWith, hhead, htail]

theorem flatten_cons_error_head {x : PyVal} {xs : List PyVal} {e : PyError}
    (h1 : flatten_iterable x = .error e) :
    flatten_iterable (.list (x :: xs)) = .error e := by
  rw [flatten_list_unfold]
  have hi : is_iterable x = true := by
    cases hi : is_iterable x
    · simp [flatten_iterable, hi] at h1
    · rfl
  have hhead : flatNestF (pySizeL (x :: xs)) x = .error e := by
    rw [flatNestF_stable (pySizeL (x :: xs)) (pySize x) x
      (by simp only [pySizeL]; omega) (Nat.le_refl _)]
    simpa [flatten_iterable, hi, _yield_flat_nest_from_iterable] using h1
  simp [flatKidsWith, hi, hhead]

theorem flatten_cons_error_tail {x : PyVal} {xs : List PyVal} {l1 : List PyVal}
    {e : PyError} (h1 : flatten_iterable x = .ok l1)
    (h2 : flatten_iterable (.list xs) = .error e) :
    flatten_iterable (.list (x :: xs)) = .error e := by
  rw [flatten_list_unfold]
  have hhead : (if is_iterable x then flatNestF (pySizeL (x :: xs)) x
      else .ok [x]) = .ok l1 := by
    cases hi : is_iterable x with
    | false =>
      simp only [Bool.false_eq_true, if_false]
      simp [flatten_iterable, hi] at h1
      rw [h1]
    | true =>
      simp only [if_true]
      rw [flatNestF_stable (pySizeL (x :: xs)) (pySize x) x
        (by simp only [pySizeL]; omega) (Nat.le_refl _)]
      simpa [flatten_iterable, hi, _yield_flat_nest_from_iterable] using h1
  have htail : flatKidsWith (flatNestF (pySizeL (x :: xs))) xs = .error e := by
    rw [flatKids_fuel _ (pySizeL xs) (fun v hv hi => ⟨by
      have := pySizeL_le_of_mem hv
      simp only [pySizeL]
      omega, pySizeL_le_of_mem hv⟩)]
    rw [← flatten_list_unfold]
    exact h2
  simp [flatKidsWith, hhead, htail]

/-- Tuples flatten exactly like lists: positional order. -/
theorem flatten_tuple_eq_list (xs : List PyVal) :
    flatten_iterable (.tuple xs) = flatten_iterable (.list xs) := by
  rw [flatten_list_unfold]
  show flatNestF (pySize (.tuple xs)) (.tuple xs) = _
  have h : pySize (.tuple xs) = pySizeL xs + 1 := by
    simp [pySize]
    omega
  rw [h]
  simp [flatNestF, _yield_value_from_iterable]

/-- Namedtuples flatten exactly like lists of their field values: declared
field order, the field names playing no role. -/
theorem flatten_namedtuple_eq_list (nm : String) (fields : List String)
    (xs : List PyVal) :
    flatten_iterable (.namedtuple nm fields xs) = flatten_iterable (.list xs) := by
  rw [flatten_list_unfold]
  show flatNestF (pySize (.namedtuple nm fields xs)) (.namedtuple nm fields xs) = _
  have h : pySize (.namedtuple nm fields xs) = pySizeL xs + 1 := by
    simp [pySize]
    omega
  rw [h]
  simp [flatNestF, _yield_value_from_iterable]

/-- A dict flattens exactly like the list of its values taken in ascending
sorted-key order. -/
theorem flatten_dict_eq_sorted_values {o : Bool} {es : List (Key × PyVal)}
    {ks : List Key} {vs : List PyVal} (hs : _sorted es = .ok ks)
    (hv : lookupMany es ks = .ok vs) :
    flatten_iterable (.dict o es) = flatten_iterable (.list vs) := by
  rw [flatten_list_unfold]
  show flatNestF (pySize (.dict o es)) (.dict o es) = _
  have h : pySize (.dict o es) = pySizeE es + 1 := by
    simp [pySize]
    omega
  rw [h]
  simp only [flatNestF, _yield_value_from_iterable, hs, hv]
  apply flatKids_fuel
  intro v hvm hi
  obtain ⟨k, hk⟩ := lookupMany_mem hv hvm
  have h1 := pySizeE_le_of_mem (dictLookup_mem hk)
  have h2 := pySizeL_le_of_mem hvm
  exact ⟨h1, h2⟩

theorem flatten_dict_unsortable {o : Bool} {es : List (Key × PyVal)}
    (h : keysSortable (dictKeys es) = false) :
    flatten_iterable (.dict o es) =
      .error (.typeError "nest only supports dicts with sortable keys.") := by
  show flatNestF (pySize (.dict o es)) (.dict o es) = _
  have hp : pySize (.dict o es) = pySizeE es + 1 := by
    simp [pySize]
    omega
  rw [hp]
  simp [flatNestF, _yield_value_from_iterable, _sorted, h]

theorem lookupMany_congr {es es2 : List (Key × PyVal)}
    (h : ∀ k, dictLookup es k = dictLookup es2 k) :
    ∀ ks, lookupMany es ks = lookupMany es2 ks := by
  intro ks
  induction ks with
  | nil => rfl
  | cons k rest ih => simp [lookupMany, h k, ih]

/-- Flattening a dict ignores the dict's native entry order and its concrete
kind: permuting the entries (with the distinct keys of a real dict) and
switching between plain and ordered dict kinds cannot change the result. -/
theorem flatten_dict_perm {o o2 : Bool} {es es2 : List (Key × PyVal)}
    (hnd : nodupKeys es = true) (h : es.Perm es2) :
    flatten_iterable (.dict o es) = flatten_iterable (.dict o2 es2) := by
  have hkperm : (dictKeys es).Perm (dictKeys es2) := h.map Prod.fst
  cases hsort : keysSortable (dictKeys es) with
  | false =>
    have hsort2 : keysSortable (dictKeys es2) = false := by
      rw [← keysSortable_perm hkperm]
      exact hsort
    rw [flatten_dict_unsortable hsort, flatten_dict_unsortable hsort2]
  | true =>
    have hsort2 : keysSortable (dictKeys es2) = true := by
      rw [← keysSortable_perm hkperm]
      exact hsort
    have hks : ksort (dictKeys es) = ksort (dictKeys es2) :=
      ksort_eq_of_perm hsort hkperm
    have hs1 : _sorted es = .ok (ksort (dictKeys es)) := by
      simp [_sorted, hsort]
    have hs2 : _sorted es2 = .ok (ksort (dictKeys es)) := by
      simp [_sorted, hsort2, hks]
    obtain ⟨vs, hvs⟩ := lookupMany_ok_of_mem es (ksort (dictKeys es))
      (fun k hk => (ksort_perm (dictKeys es)).mem_iff.mp hk)
    have hvs2 : lookupMany es2 (ksort (dictKeys es)) = .ok vs := by
      rw [← lookupMany_congr (fun k => dictLookup_perm hnd h k)]
      exact hvs
    rw [flatten_dict_eq_sorted_values hs1 hvs,
      flatten_dict_eq_sorted_values hs2 hvs2]

/-- Claim C2: flatten ordering.  `flatten_iterable` returns leaves in
depth-first left-to-right order: a list flattens to the concatenation of
its elements' flattenings in positional order (nil and cons laws), tuples
and namedtuples flatten exactly like the list of their values in positional
order, a dict flattens like the list of its values taken in ascending
sorted-key order, and the result is invariant under the dict's native
iteration order (permuting the entries of a real dict, or exchanging
plain-dict and OrderedDict kinds, changes nothing).  In particular
`flatten({"b": 2, "a": 1}) = [1, 2]` and
`flatten(["a", {"y": 2, "x": 1}, ("b", "c")]) = ["a", 1, 2, "b", "c"]`. -/
theorem C2_flatten_ordering :
    flatten_iterable (.dict false [(.str "b", .leaf (.int 2)),
        (.str "a", .leaf (.int 1))]) = .ok [.leaf (.int 1), .leaf (.int 2)] ∧
    flatten_iterable (.list [.leaf (.str "a"),
        .dict false [(.str "y", .leaf (.int 2)), (.str "x", .leaf (.int 1))],
        .tuple [.leaf (.str "b"), .leaf (.str "c")]]) =
      .ok [.leaf (.str "a"), .leaf (.int 1), .leaf (.int 2),
        .leaf (.str "b"), .leaf (.str "c")] ∧
    flatten_iterable (.list ([] : List PyVal)) = .ok [] ∧
    (∀ (x : PyVal) (xs l1 l2 : List PyVal), flatten_iterable x = .ok l1 →
      flatten_iterable (.list xs) = .ok l2 →
      flatten_iterable (.list (x :: xs)) = .ok (l1 ++ l2)) ∧
    (∀ xs, flatten_iterable (.tuple xs) = flatten_iterable (.list xs)) ∧
    (∀ nm fields xs, flatten_iterable (.namedtuple nm fields xs) =
      flatten_iterable (.list xs)) ∧
    (∀ (o : Bool) (es : List (Key × PyVal)) (ks : List Key) (vs : List PyVal),
      _sorted es = .ok ks → lookupMany es ks = .ok vs →
      flatten_iterable (.dict o es) = flatten_iterable (.list vs)) ∧
    (∀ (o o2 : Bool) (es es2 : List (Key × PyVal)), nodupKeys es = true →
      es.Perm es2 →
      flatten_iterable (.dict o es) = flatten_iterable (.dict o2 es2)) :=
  ⟨rfl, rfl, rfl,
   fun _ _ _ _ h1 h2 => flatten_cons h1 h2,
   flatten_tuple_eq_list,
   flatten_namedtuple_eq_list,
   fun _ _ _ _ hs hv => flatten_dict_eq_sorted_values hs hv,
   fun _ _ _ _ hnd h => flatten_dict_perm hnd h⟩

/-- Witness for C2's conditional conjuncts at concrete inputs: the cons law
at `[1, 2]`, the sorted-values law at `{"b": 2, "a": 1}`, and order
invariance between `{"b": 2, "a": 1}` (as an OrderedDict) and its reversal
(as a plain dict). -/
theorem C2_flatten_ordering_witness :
    (flatten_iterable (.leaf (.int 1)) = .ok [.leaf (.int 1)] ∧
      flatten_iterable (.list [.leaf (.int 2)]) = .ok [.leaf (.int 2)] ∧
      flatten_iterable (.list [.leaf (.int 1), .leaf (.int 2)]) =
        .ok ([.leaf (.int 1)] ++ [.leaf (.int 2)])) ∧
    (_sorted [(.str "b", .leaf (.int 2)), (.str "a", .leaf (.int 1))] =
        .ok [.str "a", .str "b"] ∧
      lookupMany [(.str "b", .leaf (.int 2)), (.str "a", .leaf (.int 1))]
        [.str "a", .str "b"] = .ok [.leaf (.int 1), .leaf (.int 2)] ∧
      flatten_iterable (.dict false [(.str "b", .leaf (.int 2)),
        (.str "a", .leaf (.int 1))]) =
      flatten_iterable (.list [.leaf (.int 1), .leaf (.int 2)])) ∧
    (nodupKeys [(.str "b", .leaf (.int 2)), (.str "a", .leaf (.int 1))] = true ∧
      flatten_iterable (.dict true [(.str "b", .leaf (.int 2)),
        (.str "a", .leaf (.int 1))]) =
      flatten_iterable (.dict false [(.str "a", .leaf (.int 1)),
        (.str "b", .leaf (.int 2))])) :=
  ⟨⟨rfl, rfl, C2_flatten_ordering.2.2.2.1 (.leaf (.int 1)) [.leaf (.int 2)]
      [.leaf (.int 1)] [.leaf (.int 2)] rfl rfl⟩,
   ⟨rfl, rfl, C2_flatten_ordering.2.2.2.2.2.2.1 false
      [(.str "b", .leaf (.int 2)), (.str "a", .leaf (.int 1))]
      [.str "a", .str "b"] [.leaf (.int 1), .leaf (.int 2)] rfl rfl⟩,
   ⟨by decide, C2_flatten_ordering.2.2.2.2.2.2.2 true false
      [(.str "b", .leaf (.int 2)), (.str "a", .leaf (.int 1))]
      [(.str "a", .leaf (.int 1)), (.str "b", .leaf (.int 2))]
      (by decide)
      (List.Perm.swap ((Key.str "a", PyVal.leaf (Atom.int 1)) : Key × PyVal)
        ((Key.str "b", PyVal.leaf (Atom.int 2)) : Key × PyVal) [])⟩⟩

/-- Claim C6: unsortable keys.  For every structure (with the distinct keys
of real Python dicts) that is or contains a mapping whose keys are not
pairwise comparable, `flatten_iterable` fails with the unsortable-keys
`TypeError`, and `pack_iterable_as` on that template fails with the very
same error during its internal re-flatten arity-check step, whatever flat
list is supplied; in the `Except` model the error is the entire result, so
it propagates immediately with no retry and no partial output.  In
particular `flatten({1: "x", "y": "z"})` fails with that error. -/
theorem C6_unsortable_keys :
    (∀ S : PyVal, nodupDicts S = true → containsUnsortable S = true →
      flatten_iterable S =
        .error (.typeError "nest only supports dicts with sortable keys.") ∧
      ∀ l : List PyVal, pack_iterable_as S (.list l) =
        .error (.typeError "nest only supports dicts with sortable keys.")) ∧
    flatten_iterable (.dict false [(.int 1, .leaf (.str "x")),
        (.str "y", .leaf (.str "z"))]) =
      .error (.typeError "nest only supports dicts with sortable keys.") := by
  constructor
  · intro S hnd hcu
    have hi := containsUnsortable_iterable hcu
    have herr := (flatNestF_total (pySize S) S (Nat.le_refl _) hi hnd).1 hcu
    have hflat : flatten_iterable S =
        .error (.typeError "nest only supports dicts with sortable keys.") := by
      simp [flatten_iterable, hi, _yield_flat_nest_from_iterable, herr]
    refine ⟨hflat, fun l => ?_⟩
    simp [pack_iterable_as, hi, is_iterable_list, hflat]
  · rfl

/-- Witness for C6 at `{1: "x", "y": "z"}`: its keys are distinct yet not
pairwise comparable, and both flatten and pack (here with an empty flat
list) fail with the unsortable-keys error. -/
theorem C6_unsortable_keys_witness :
    nodupDicts (.dict false [(.int 1, .leaf (.str "x")),
      (.str "y", .leaf (.str "z"))]) = true ∧
    containsUnsortable (.dict false [(.int 1, .leaf (.str "x")),
      (.str "y", .leaf (.str "z"))]) = true ∧
    flatten_iterable (.dict false [(.int 1, .leaf (.str "x")),
        (.str "y", .leaf (.str "z"))]) =
      .error (.typeError "nest only supports dicts with sortable keys.") ∧
    pack_iterable_as (.dict false [(.int 1, .leaf (.str "x")),
        (.str "y", .leaf (.str "z"))]) (.list []) =
      .error (.typeError "nest only supports dicts with sortable keys.") := by
  refine ⟨by decide, by decide, ?_, ?_⟩
  · exact (C6_unsortable_keys.1 _ (by decide) (by decide)).1
  · exact (C6_unsortable_keys.1 _ (by decide) (by decide)).2 []

/-! ### The arity error and its message -/

theorem infix_here (l rest : List Char) : l <:+: l ++ rest :=
  ⟨[], rest, by simp⟩

theorem infix_appendLeft (x : List Char) {l r : List Char} (h : l <:+: r) :
    l <:+: x ++ r := by
  obtain ⟨p, q, hpq⟩ := h
  exact ⟨x ++ p, q, by rw [← hpq]; simp [List.append_assoc]⟩

/-- The arity message decomposed into its literal and interpolated pieces. -/
theorem arityMsg_data (nS nF : Nat) (sv fv : PyVal) :
    (arityMsg nS nF sv fv).data =
      ("Could not pack iterable. Structure had " : String).data ++
      ((toString nS).data ++ ((" elements, but flat_iterable had " : String).data ++
      ((toString nF).data ++ ((" elements.  Structure: " : String).data ++
      ((pyRepr sv).data ++ ((", flat_iterable: " : String).data ++
      ((pyRepr fv).data ++ ("." : String).data))))))) := by
  simp [arityMsg, String.data_append, List.append_assoc]

/-- Claim C4: arity mismatch.  For every composite template whose
flattening succeeds with `leaves` and every flat list of a different
length, `pack_iterable_as` fails with the `ValueError`-class arity error
whose message is `arityMsg`; and that message contains (as substrings of
its character data) both element counts as well as the renderings of the
template structure and of the flat values. -/
theorem C4_arity_mismatch :
    (∀ (T fv : PyVal) (leaves : List PyVal) (n : Nat), is_iterable T = true →
      flatten_iterable T = .ok leaves → is_iterable fv = true →
      pyLen fv = .ok n → leaves.length ≠ n →
      pack_iterable_as T fv =
        .error (.valueError (arityMsg leaves.length n T fv))) ∧
    (∀ (nS nF : Nat) (sv fv : PyVal),
      (toString nS).data <:+: (arityMsg nS nF sv fv).data ∧
      (toString nF).data <:+: (arityMsg nS nF sv fv).data ∧
      (pyRepr sv).data <:+: (arityMsg nS nF sv fv).data ∧
      (pyRepr fv).data <:+: (arityMsg nS nF sv fv).data) := by
  constructor
  · intro T fv leaves n hi hflat hif hlen hne
    simp [pack_iterable_as, hif, hi, hflat, hlen, hne]
  · intro nS nF sv fv
    refine ⟨?_, ?_, ?_, ?_⟩
    · rw [arityMsg_data]
      exact infix_appendLeft _ (infix_here _ _)
    · rw [arityMsg_data]
      exact infix_appendLeft _ (infix_appendLeft _ (infix_appendLeft _
        (infix_here _ _)))
    · rw [arityMsg_data]
      exact infix_appendLeft _ (infix_appendLeft _ (infix_appendLeft _
        (infix_appendLeft _ (infix_appendLeft _ (infix_here _ _)))))
    · rw [arityMsg_data]
      exact infix_appendLeft _ (infix_appendLeft _ (infix_appendLeft _
        (infix_appendLeft _ (infix_appendLeft _ (infix_appendLeft _
          (infix_appendLeft _ (infix_here _ _)))))))

/-- Witness for C4: the template `{"a": 1, "b": 2}` has two leaves, so
packing it with the one-element list `[10]` fails with the arity
`ValueError`. -/
theorem C4_arity_mismatch_witness :
    is_iterable (.dict false [(.str "a", .leaf (.int 1)),
      (.str "b", .leaf (.int 2))]) = true ∧
    flatten_iterable (.dict false [(.str "a", .leaf (.int 1)),
      (.str "b", .leaf (.int 2))]) = .ok [.leaf (.int 1), .leaf (.int 2)] ∧
    pack_iterable_as (.dict false [(.str "a", .leaf (.int 1)),
        (.str "b", .leaf (.int 2))]) (.list [.leaf (.int 10)]) =
      .error (.valueError (arityMsg 2 1
        (.dict false [(.str "a", .leaf (.int 1)), (.str "b", .leaf (.int 2))])
        (.list [.leaf (.int 10)]))) :=
  ⟨rfl, rfl, C4_arity_mismatch.1
    (.dict false [(.str "a", .leaf (.int 1)), (.str "b", .leaf (.int 2))])
    (.list [.leaf (.int 10)]) [.leaf (.int 1), .leaf (.int 2)] 1
    rfl rfl rfl rfl (by decide)⟩

/-! ### Mapping reconstruction and cross-kind repacking -/

theorem getElem?_lt {α : Type} {l : List α} {i : Nat} {a : α}
    (h : l[i]? = some a) : i < l.length := by
  by_contra hc
  rw [List.getElem?_eq_none_iff.mpr (by omega)] at h
  cases h

/-- A flat list of leaves flattens to itself. -/
theorem flatKids_all_leaves (r : PyVal → Except PyError (List PyVal)) :
    ∀ {vs : List PyVal}, (∀ v ∈ vs, is_iterable v = false) →
    flatKidsWith r vs = .ok vs := by
  intro vs
  induction vs with
  | nil => intro _; rfl
  | cons v rest ih =>
    intro h
    have hv := h v (List.mem_cons_self _ _)
    have hrest := ih (fun u hu => h u (List.mem_cons_of_mem _ hu))
    simp [flatKidsWith, hv, hrest]

theorem flatten_all_leaves {vs : List PyVal}
    (h : ∀ v ∈ vs, is_iterable v = false) :
    flatten_iterable (.list vs) = .ok vs := by
  rw [flatten_list_unfold]
  exact flatKids_all_leaves _ h

/-- Packing a run of leaf template positions copies the corresponding
segment of the flat list. -/
theorem packKids_all_leaves (r : PyVal → PyVal → Nat → Except PyError (Nat × List PyVal)) :
    ∀ {vs : List PyVal}, (∀ v ∈ vs, is_iterable v = false) →
    ∀ (F : List PyVal) (i : Nat), i + vs.length ≤ F.length →
    ∃ packed, packKidsWith r (.list F) vs i = .ok (i + vs.length, packed) ∧
      packed.length = vs.length ∧
      ∀ j : Nat, j < vs.length → packed[j]? = F[i + j]? := by
  intro vs
  induction vs with
  | nil =>
    intro _ F i _
    refine ⟨[], by simp [packKidsWith], rfl, by simp⟩
  | cons v rest ih =>
    intro h F i hlen
    have hv := h v (List.mem_cons_self _ _)
    have hiF : i < F.length := by
      simp only [List.length_cons] at hlen
      omega
    obtain ⟨w, hw⟩ : ∃ w, F[i]? = some w := by
      cases hF : F[i]?
      · rw [List.getElem?_eq_none_iff] at hF
        omega
      · exact ⟨_, rfl⟩
    obtain ⟨packed, hpk, hplen, hpget⟩ := ih
      (fun u hu => h u (List.mem_cons_of_mem _ hu)) F (i + 1)
      (by simp only [List.length_cons] at hlen; omega)
    refine ⟨w :: packed, ?_, by simp [hplen], ?_⟩
    · simp only [packKidsWith, hv, Bool.false_eq_true, if_false, getItem,
        hw, hpk]
      simp
      omega
    · intro j hj
      cases j with
      | zero => simpa using hw.symm
      | succ j =>
        simp only [List.getElem?_cons_succ]
        rw [hpget j (by simpa using hj)]
        congr 1
        omega

/-- The dict branch of `_iterable_like`: on a real dict (distinct keys) it
pairs the ascending-sorted keys positionally with `args`, rebuilding a
dict of the same concrete kind, native key order, and `args[j]` at the
`j`-th smallest key. -/
theorem iterable_like_dict {o : Bool} {es : List (Key × PyVal)}
    {args : List PyVal} {ks : List Key} (hnd : nodupKeys es = true)
    (hs : _sorted es = .ok ks) (hlen : args.length = es.length) :
    ∃ es2, _iterable_like (.dict o es) args = .ok (.dict o es2) ∧
      dictKeys es2 = dictKeys es ∧
      ∀ (j : Nat) (k : Key), ks[j]? = some k → dictLookup es2 k = args[j]? := by
  have hks : ks = ksort (dictKeys es) := by
    simp only [_sorted] at hs
    cases h2 : keysSortable (dictKeys es)
    · rw [h2] at hs
      simp at hs
    · rw [h2] at hs
      simp at hs
      rw [← hs]
  have hkperm : ks.Perm (dictKeys es) := hks ▸ ksort_perm (dictKeys es)
  have hndks : nodupK ks = true :=
    nodupK_iff.mpr (hkperm.nodup_iff.mpr (nodupK_iff.mp hnd))
  have hkslen : ks.length = es.length := by
    rw [hkperm.length_eq]
    simp [dictKeys]
  have hfound : ∀ k, k ∈ dictKeys es → ∃ v, dictLookup (zipKV ks args) k = some v := by
    intro k hk
    obtain ⟨j, hj⟩ := List.getElem?_of_mem (hkperm.mem_iff.mpr hk)
    have hjlt : j < args.length := by
      have := getElem?_lt hj
      omega
    rw [zipKV_lookup_at_index hndks hj hjlt]
    exact ⟨args[j], by simp [List.getElem?_eq_some_getElem_iff _ _ hjlt]⟩
  obtain ⟨es2, hrb, hkeys, hlk⟩ := rebuildEntries_ok hfound
  refine ⟨es2, by simp [_iterable_like, hs, hrb], hkeys, ?_⟩
  intro j k hj
  have hkmem : k ∈ dictKeys es := hkperm.mem_iff.mp (List.getElem?_mem hj)
  rw [hlk k hkmem]
  exact zipKV_lookup_at_index hndks hj (by have := getElem?_lt hj; omega)

/-- Claim C3: cross-kind repack / mapping reconstruction.  When packing, a
dict template node is rebuilt by pairing its ascending-sorted keys
positionally with the rebuilt children (`args[j]` goes to the `j`-th
smallest key), producing a new dict of the template's concrete kind (the
`ordered` flag) with the template's native key order; consequently,
flattening one mapping and packing the flat values into a mapping template
of a possibly different concrete kind and native order but the same keys
(here with leaf values, distinct keys as in any real dict) yields identical
key-to-value associations. -/
theorem C3_cross_kind_repack :
    (∀ (o : Bool) (es : List (Key × PyVal)) (args : List PyVal) (ks : List Key),
      nodupKeys es = true → _sorted es = .ok ks → args.length = es.length →
      ∃ es2, _iterable_like (.dict o es) args = .ok (.dict o es2) ∧
        dictKeys es2 = dictKeys es ∧
        ∀ (j : Nat) (k : Key), ks[j]? = some k →
          dictLookup es2 k = args[j]?) ∧
    (∀ (o1 o2 : Bool) (es1 es2 : List (Key × PyVal)),
      nodupKeys es1 = true → nodupKeys es2 = true →
      keysSortable (dictKeys es1) = true →
      (dictKeys es1).Perm (dictKeys es2) →
      (∀ p ∈ es1, ∃ a, p.2 = PyVal.leaf a) →
      (∀ p ∈ es2, ∃ a, p.2 = PyVal.leaf a) →
      ∃ (l : List PyVal) (es3 : List (Key × PyVal)),
        flatten_iterable (.dict o1 es1) = .ok l ∧
        pack_iterable_as (.dict o2 es2) (.list l) = .ok (.dict o2 es3) ∧
        ∀ k, dictLookup es3 k = dictLookup es1 k) := by
  constructor
  · intro o es args ks hnd hs hlen
    exact iterable_like_dict hnd hs hlen
  · intro o1 o2 es1 es2 hnd1 hnd2 hsort1 hkperm hlv1 hlv2
    have hsort2 : keysSortable (dictKeys es2) = true := by
      rw [← keysSortable_perm hkperm]
      exact hsort1
    have hs1 : _sorted es1 = .ok (ksort (dictKeys es1)) := by
      simp [_sorted, hsort1]
    have hs2 : _sorted es2 = .ok (ksort (dictKeys es1)) := by
      simp only [_sorted, hsort2, if_true]
      rw [← ksort_eq_of_perm hsort1 hkperm]
    obtain ⟨vs1, hlk1⟩ := lookupMany_ok_of_mem es1 (ksort (dictKeys es1))
      (fun k hk => (ksort_perm (dictKeys es1)).mem_iff.mp hk)
    obtain ⟨vs2, hlk2⟩ := lookupMany_ok_of_mem es2 (ksort (dictKeys es1))
      (fun k hk => hkperm.mem_iff.mp ((ksort_perm (dictKeys es1)).mem_iff.mp hk))
    have hleafs1 : ∀ v ∈ vs1, is_iterable v = false := by
      intro v hv
      obtain ⟨k, hk⟩ := lookupMany_mem hlk1 hv
      obtain ⟨a, ha⟩ := hlv1 (k, v) (dictLookup_mem hk)
      simp only at ha
      rw [ha]
      exact is_iterable_leaf a
    have hleafs2 : ∀ v ∈ vs2, is_iterable v = false := by
      intro v hv
      obtain ⟨k, hk⟩ := lookupMany_mem hlk2 hv
      obtain ⟨a, ha⟩ := hlv2 (k, v) (dictLookup_mem hk)
      simp only at ha
      rw [ha]
      exact is_iterable_leaf a
    have hflat1 : flatten_iterable (.dict o1 es1) = .ok vs1 := by
      rw [flatten_dict_eq_sorted_values hs1 hlk1]
      exact flatten_all_leaves hleafs1
    have hflat2 : flatten_iterable (.dict o2 es2) = .ok vs2 := by
      rw [flatten_dict_eq_sorted_values hs2 hlk2]
      exact flatten_all_leaves hleafs2
    have hlen1 : vs1.length = (ksort (dictKeys es1)).length :=
      (lookupMany_spec hlk1).1
    have hlen2 : vs2.length = (ksort (dictKeys es1)).length :=
      (lookupMany_spec hlk2).1
    have hlenk : (ksort (dictKeys es1)).length = es1.length := by
      rw [(ksort_perm (dictKeys es1)).length_eq]
      simp [dictKeys]
    have hlenvs : vs2.length = vs1.length := by omega
    have hlen12 : es1.length = es2.length := by
      have h1 := hkperm.length_eq
      simp only [dictKeys, List.length_map] at h1
      exact h1
    obtain ⟨es3, hlike, hkeys3, hbullet⟩ :=
      @iterable_like_dict o2 es2 vs1 (ksort (dictKeys es1)) hnd2 hs2 (by omega)
    have hpack : _packed_iterable_nest_with_indices (.dict o2 es2)
        (.list vs1) 0 = .ok (0 + vs2.length, vs1) := by
      show packNestF (pySize (.dict o2 es2)) _ _ _ = _
      have hp : pySize (.dict o2 es2) = pySizeE es2 + 1 := by
        simp only [pySize]
        omega
      rw [hp]
      simp only [packNestF, _yield_value_from_iterable, hs2, hlk2]
      obtain ⟨packed, hpk, hplen, hpget⟩ := packKids_all_leaves
        (packNestF (pySizeE es2)) hleafs2 vs1 0 (by omega)
      have hpv : packed = vs1 := by
        apply List.ext_getElem?_iff.mpr
        intro i
        by_cases hi : i < vs2.length
        · rw [hpget i hi]
          simp
        · rw [List.getElem?_eq_none_iff.mpr (by omega),
            List.getElem?_eq_none_iff.mpr (by omega)]
      rw [hpv] at hpk
      exact hpk
    refine ⟨vs1, es3, hflat1, ?_, ?_⟩
    · simp [pack_iterable_as, is_iterable_list, is_iterable_dict, hflat2,
        pyLen, hlenvs, hpack, hlike]
    · intro k
      by_cases hk : k ∈ dictKeys es2
      · have hk1 : k ∈ dictKeys es1 := hkperm.mem_iff.mpr hk
        have hkks : k ∈ ksort (dictKeys es1) :=
          (ksort_perm (dictKeys es1)).mem_iff.mpr hk1
        obtain ⟨j, hj⟩ := List.getElem?_of_mem hkks
        rw [hbullet j k hj]
        exact (lookupMany_spec hlk1).2 j k hj
      · rw [dictLookup_none_iff.mpr (by rw [hkeys3]; exact hk),
          dictLookup_none_iff.mpr (fun hm => hk (hkperm.mem_iff.mp hm))]

/-- Witness for C3: flattening the OrderedDict `OrderedDict([("b", 2),
("a", 1)])` and packing into the plain-dict template `{"a": 0, "b": 0}`
yields the associations `a ↦ 1`, `b ↦ 2` of the flattened mapping. -/
theorem C3_cross_kind_repack_witness :
    nodupKeys [(Key.str "b", PyVal.leaf (Atom.int 2)),
      (Key.str "a", PyVal.leaf (Atom.int 1))] = true ∧
    nodupKeys [(Key.str "a", PyVal.leaf (Atom.int 0)),
      (Key.str "b", PyVal.leaf (Atom.int 0))] = true ∧
    keysSortable (dictKeys [(Key.str "b", PyVal.leaf (Atom.int 2)),
      (Key.str "a", PyVal.leaf (Atom.int 1))]) = true ∧
    ∃ (l : List PyVal) (es3 : List (Key × PyVal)),
      flatten_iterable (.dict true [(.str "b", .leaf (.int 2)),
        (.str "a", .leaf (.int 1))]) = .ok l ∧
      pack_iterable_as (.dict false [(.str "a", .leaf (.int 0)),
        (.str "b", .leaf (.int 0))]) (.list l) = .ok (.dict false es3) ∧
      ∀ k, dictLookup es3 k =
        dictLookup [(Key.str "b", PyVal.leaf (Atom.int 2)),
          (Key.str "a", PyVal.leaf (Atom.int 1))] k :=
  ⟨by decide, by decide, by decide,
   C3_cross_kind_repack.2 true false
     [(.str "b", .leaf (.int 2)), (.str "a", .leaf (.int 1))]
     [(.str "a", .leaf (.int 0)), (.str "b", .leaf (.int 0))]
     (by decide) (by decide) (by decide)
     (List.Perm.swap (Key.str "a") (Key.str "b") [])
     (by rintro p hp; fin_cases hp <;> exact ⟨_, rfl⟩)
     (by rintro p hp; fin_cases hp <;> exact ⟨_, rfl⟩)⟩

end Nest
